import Mathlib

/-!
Verification development for the alphaRoutePlan label-setting route solvers
(`src/forward_solver.py` and `src/reverse_solver_pseudocode.py`).

The Python code is shallowly embedded over exact rationals (`ℚ` models the
Python/NumPy floating-point values; integers model Python ints).  Fields of
the Python result dictionaries holding wall-clock times (`total_time`),
map coordinates (`path_coords`) and square roots (`std_*`, which equal
`sqrt(variance)` and are irrational) are omitted from the embedding; no
claim refers to them.  Variances are tracked exactly instead.
-/

/-- Python `int(x)` on a float: truncation toward zero. -/
def pyInt (q : ℚ) : ℤ := if 0 ≤ q then ⌊q⌋ else -(⌊-q⌋)

/-- Python `round(x)` on a float: round half to even (banker's rounding). -/
def pyRound (q : ℚ) : ℤ :=
  if q - (⌊q⌋ : ℚ) < 1/2 then ⌊q⌋
  else if 1/2 < q - (⌊q⌋ : ℚ) then ⌊q⌋ + 1
  else if ⌊q⌋ % 2 = 0 then ⌊q⌋ else ⌊q⌋ + 1

/-- `np.cumsum` with a running accumulator. -/
def cumsumFrom (acc : ℚ) : List ℚ → List ℚ
  | [] => []
  | x :: xs => (acc + x) :: cumsumFrom (acc + x) xs

/-- `np.cumsum`. -/
def cumsum (l : List ℚ) : List ℚ := cumsumFrom 0 l

/-- `np.linspace a b n` (with endpoint, as in the source). -/
def linspace (a b : ℚ) (n : ℕ) : List ℚ :=
  if n = 0 then []
  else if n = 1 then [a]
  else (List.range n).map (fun (i : ℕ) => a + (b - a) * (i : ℚ) / ((n : ℚ) - 1))

/-- `np.ones(n) / n`: the uniform weight vector. -/
def uniformW (n : ℕ) : List ℚ := List.replicate n (1 / (n : ℚ))

/-- `np.arange lo hi 1` over integers: `[lo, lo+1, ..., hi-1]`. -/
def arange (lo hi : ℤ) : List ℤ := (List.range (hi - lo).toNat).map (fun i => lo + (i : ℤ))

/-- `min` of a nonempty float array (junk `0` on the empty array). -/
def npMin (l : List ℚ) : ℚ :=
  match l with
  | [] => 0
  | a :: as => as.foldl min a

/-- `max` of a nonempty float array (junk `0` on the empty array). -/
def npMax (l : List ℚ) : ℚ :=
  match l with
  | [] => 0
  | a :: as => as.foldl max a

/-- Largest index `j` with `xp[j] ≤ x` (the binary search inside `np.interp`). -/
def lastLE : List ℚ → ℚ → Option ℕ
  | [], _ => none
  | a :: as, x =>
    match lastLE as x with
    | some j => some (j + 1)
    | none => if a ≤ x then some 0 else none

/-- `np.interp x xp fp`: linear interpolation with clamping, following the
branch structure of NumPy's `arr_interp` (largest `j` with `xp[j] ≤ x`;
clamp below `xp[0]` and at the last index; exact hit returns `fp[j]`). -/
def npInterp (x : ℚ) (xp fp : List ℚ) : ℚ :=
  match lastLE xp x with
  | none => fp.headD 0
  | some j =>
    if j + 1 = xp.length then fp.getD j 0
    else if xp.getD j 0 = x then fp.getD j 0
    else
      fp.getD j 0 +
        (fp.getD (j + 1) 0 - fp.getD j 0) * (x - xp.getD j 0) / (xp.getD (j + 1) 0 - xp.getD j 0)

theorem cumsumFrom_length (acc : ℚ) (l : List ℚ) : (cumsumFrom acc l).length = l.length := by
  induction l generalizing acc with
  | nil => rfl
  | cons x xs ih => simp [cumsumFrom, ih]

theorem cumsum_length (l : List ℚ) : (cumsum l).length = l.length := cumsumFrom_length 0 l

theorem lastLE_lt_length {xp : List ℚ} {x : ℚ} {j : ℕ} (h : lastLE xp x = some j) :
    j < xp.length := by
  induction xp generalizing j with
  | nil => simp [lastLE] at h
  | cons a as ih =>
    simp only [lastLE] at h
    cases has : lastLE as x with
    | some j0 =>
      rw [has] at h
      cases h
      simpa using Nat.succ_lt_succ (ih has)
    | none =>
      rw [has] at h
      by_cases hax : a ≤ x
      · simp [hax] at h
        subst h
        simp
      · simp [hax] at h

theorem lastLE_le {xp : List ℚ} {x : ℚ} {j : ℕ} (h : lastLE xp x = some j) :
    xp.getD j 0 ≤ x := by
  induction xp generalizing j with
  | nil => simp [lastLE] at h
  | cons a as ih =>
    simp only [lastLE] at h
    cases has : lastLE as x with
    | some j0 =>
      rw [has] at h
      cases h
      simpa using ih has
    | none =>
      rw [has] at h
      by_cases hax : a ≤ x
      · simp [hax] at h
        subst h
        simpa using hax
      · simp [hax] at h

theorem lastLE_none {xp : List ℚ} {x : ℚ} (h : lastLE xp x = none)
    {k : ℕ} (hk : k < xp.length) : x < xp.getD k 0 := by
  induction xp generalizing k with
  | nil => simp at hk
  | cons a as ih =>
    simp only [lastLE] at h
    cases has : lastLE as x with
    | some j0 => rw [has] at h; simp at h
    | none =>
      rw [has] at h
      by_cases hax : a ≤ x
      · simp [hax] at h
      · match k with
        | 0 => simpa using lt_of_not_le hax
        | k + 1 =>
          simp only [List.getD_cons_succ]
          exact ih has (by simpa using Nat.lt_of_succ_lt_succ hk)

theorem lastLE_gt {xp : List ℚ} {x : ℚ} {j : ℕ} (h : lastLE xp x = some j)
    {k : ℕ} (hjk : j < k) (hk : k < xp.length) : x < xp.getD k 0 := by
  induction xp generalizing j k with
  | nil => simp [lastLE] at h
  | cons a as ih =>
    simp only [lastLE] at h
    cases has : lastLE as x with
    | some j0 =>
      rw [has] at h
      cases h
      match k, hjk with
      | k + 1, hjk =>
        simp only [List.getD_cons_succ]
        exact ih has (Nat.lt_of_succ_lt_succ hjk) (by simpa using Nat.lt_of_succ_lt_succ hk)
    | none =>
      rw [has] at h
      by_cases hax : a ≤ x
      · simp [hax] at h
        subst h
        match k, hjk with
        | k + 1, _ =>
          simp only [List.getD_cons_succ]
          exact lastLE_none has (by simpa using Nat.lt_of_succ_lt_succ hk)
      · simp [hax] at h

theorem lastLE_mono {xp : List ℚ} {x y : ℚ} (hxy : x ≤ y) :
    ∀ {j : ℕ}, lastLE xp x = some j →
      ∃ k, lastLE xp y = some k ∧ j ≤ k := by
  induction xp with
  | nil => intro j h; simp [lastLE] at h
  | cons a as ih =>
    intro j h
    simp only [lastLE] at h ⊢
    cases has : lastLE as x with
    | some j0 =>
      rw [has] at h
      cases h
      obtain ⟨k0, hk0, hle⟩ := ih has
      rw [hk0]
      exact ⟨k0 + 1, rfl, Nat.succ_le_succ hle⟩
    | none =>
      rw [has] at h
      by_cases hax : a ≤ x
      · simp [hax] at h
        subst h
        cases hay : lastLE as y with
        | some k0 => exact ⟨k0 + 1, rfl, Nat.zero_le _⟩
        | none =>
          have : a ≤ y := le_trans hax hxy
          simp [this]
      · simp [hax] at h

theorem listGetD_eq_get {α : Type} (l : List α) (d : α) {n : ℕ} (h : n < l.length) :
    l.getD n d = l.get ⟨n, h⟩ := by
  induction l generalizing n with
  | nil => simp at h
  | cons a as ih =>
    match n with
    | 0 => rfl
    | n + 1 => simpa using ih (Nat.lt_of_succ_lt_succ h)

theorem listGetD_mem {α : Type} (l : List α) (d : α) {n : ℕ} (h : n < l.length) :
    l.getD n d ∈ l := by
  rw [listGetD_eq_get l d h]
  exact List.get_mem l n h

theorem sorted_getD_mono {fp : List ℚ} (h : List.Sorted (· ≤ ·) fp) {i j : ℕ}
    (hij : i ≤ j) (hj : j < fp.length) : fp.getD i 0 ≤ fp.getD j 0 := by
  rcases Nat.eq_or_lt_of_le hij with heq | hlt
  · subst heq; exact le_refl _
  · have hi : i < fp.length := lt_trans hlt hj
    rw [listGetD_eq_get fp 0 hi, listGetD_eq_get fp 0 hj]
    exact List.pairwise_iff_get.mp h ⟨i, hi⟩ ⟨j, hj⟩ hlt

theorem npInterp_of_none {x : ℚ} {xp : List ℚ} (fp : List ℚ) (h : lastLE xp x = none) :
    npInterp x xp fp = fp.headD 0 := by
  simp only [npInterp, h]

theorem npInterp_of_some {x : ℚ} {xp : List ℚ} (fp : List ℚ) {j : ℕ}
    (h : lastLE xp x = some j) :
    npInterp x xp fp =
      (if j + 1 = xp.length then fp.getD j 0
       else if xp.getD j 0 = x then fp.getD j 0
       else fp.getD j 0 + (fp.getD (j + 1) 0 - fp.getD j 0) * (x - xp.getD j 0) /
         (xp.getD (j + 1) 0 - xp.getD j 0)) := by
  simp only [npInterp, h]

/-- The value of `np.interp` is always a convex combination of two entries of `fp`. -/
theorem npInterp_hull (x : ℚ) (xp fp : List ℚ) (hne : fp ≠ [])
    (hlen : xp.length = fp.length) :
    ∃ a ∈ fp, ∃ b ∈ fp, ∃ t : ℚ, 0 ≤ t ∧ t ≤ 1 ∧ npInterp x xp fp = (1 - t) * a + t * b := by
  cases hll : lastLE xp x with
  | none =>
    have hh : fp.headD 0 ∈ fp := by
      match fp, hne with
      | a :: as, _ => simp
    exact ⟨fp.headD 0, hh, fp.headD 0, hh, 0, le_refl 0, zero_le_one, by
      rw [npInterp_of_none fp hll]; ring⟩
  | some j =>
    have hj : j < xp.length := lastLE_lt_length hll
    have hjf : j < fp.length := hlen ▸ hj
    by_cases hlast : j + 1 = xp.length
    · refine ⟨fp.getD j 0, listGetD_mem fp 0 hjf, fp.getD j 0, listGetD_mem fp 0 hjf, 0,
        le_refl 0, zero_le_one, ?_⟩
      rw [npInterp_of_some fp hll, if_pos hlast]
      ring
    · have hj1 : j + 1 < xp.length := Nat.lt_of_le_of_ne hj (fun h2 => hlast h2)
      have hj1f : j + 1 < fp.length := hlen ▸ hj1
      by_cases heq : xp.getD j 0 = x
      · refine ⟨fp.getD j 0, listGetD_mem fp 0 hjf, fp.getD j 0, listGetD_mem fp 0 hjf, 0,
          le_refl 0, zero_le_one, ?_⟩
        rw [npInterp_of_some fp hll, if_neg hlast, if_pos heq]
        ring
      · have hle : xp.getD j 0 ≤ x := lastLE_le hll
        have hltx : xp.getD j 0 < x := lt_of_le_of_ne hle heq
        have hgt : x < xp.getD (j + 1) 0 := lastLE_gt hll (Nat.lt_succ_self j) hj1
        have hd : (0 : ℚ) < xp.getD (j + 1) 0 - xp.getD j 0 := by linarith
        refine ⟨fp.getD j 0, listGetD_mem fp 0 hjf, fp.getD (j + 1) 0, listGetD_mem fp 0 hj1f,
          (x - xp.getD j 0) / (xp.getD (j + 1) 0 - xp.getD j 0), ?_, ?_, ?_⟩
        · exact div_nonneg (by linarith) (by linarith)
        · rw [div_le_one hd]; linarith
        · rw [npInterp_of_some fp hll, if_neg hlast, if_neg heq]
          field_simp
          ring

theorem lt_npInterp_of_forall_lt {x : ℚ} {xp fp : List ℚ} {c : ℚ}
    (hc : ∀ y ∈ fp, c < y) (hne : fp ≠ []) (hlen : xp.length = fp.length) :
    c < npInterp x xp fp := by
  obtain ⟨a, ha, b, hb, t, ht0, ht1, hres⟩ := npInterp_hull x xp fp hne hlen
  have hca := hc a ha
  have hcb := hc b hb
  rcases eq_or_lt_of_le ht1 with h1 | h1
  · subst h1; rw [hres]; linarith
  · have h2 : 0 < (1 - t) * (a - c) := mul_pos (by linarith) (by linarith)
    have h3 : 0 ≤ t * (b - c) := mul_nonneg ht0 (by linarith)
    have h4 : npInterp x xp fp - c = (1 - t) * (a - c) + t * (b - c) := by rw [hres]; ring
    linarith

theorem le_npInterp_of_forall_le {x : ℚ} {xp fp : List ℚ} {c : ℚ}
    (hc : ∀ y ∈ fp, c ≤ y) (hne : fp ≠ []) (hlen : xp.length = fp.length) :
    c ≤ npInterp x xp fp := by
  obtain ⟨a, ha, b, hb, t, ht0, ht1, hres⟩ := npInterp_hull x xp fp hne hlen
  have h2 : 0 ≤ (1 - t) * (a - c) := mul_nonneg (by linarith) (by linarith [hc a ha])
  have h3 : 0 ≤ t * (b - c) := mul_nonneg ht0 (by linarith [hc b hb])
  have h4 : npInterp x xp fp - c = (1 - t) * (a - c) + t * (b - c) := by rw [hres]; ring
  linarith

theorem npInterp_le_of_forall_le {x : ℚ} {xp fp : List ℚ} {c : ℚ}
    (hc : ∀ y ∈ fp, y ≤ c) (hne : fp ≠ []) (hlen : xp.length = fp.length) :
    npInterp x xp fp ≤ c := by
  obtain ⟨a, ha, b, hb, t, ht0, ht1, hres⟩ := npInterp_hull x xp fp hne hlen
  have h2 : 0 ≤ (1 - t) * (c - a) := mul_nonneg (by linarith) (by linarith [hc a ha])
  have h3 : 0 ≤ t * (c - b) := mul_nonneg ht0 (by linarith [hc b hb])
  have h4 : c - npInterp x xp fp = (1 - t) * (c - a) + t * (c - b) := by rw [hres]; ring
  linarith

theorem getD_le_npInterp {x : ℚ} {xp fp : List ℚ} {j : ℕ} (hll : lastLE xp x = some j)
    (hfp : List.Sorted (· ≤ ·) fp) (hlen : xp.length = fp.length) :
    fp.getD j 0 ≤ npInterp x xp fp := by
  have hj : j < xp.length := lastLE_lt_length hll
  rw [npInterp_of_some fp hll]
  by_cases hlast : j + 1 = xp.length
  · rw [if_pos hlast]
  · have hj1 : j + 1 < xp.length := Nat.lt_of_le_of_ne hj (fun h2 => hlast h2)
    rw [if_neg hlast]
    by_cases heq : xp.getD j 0 = x
    · rw [if_pos heq]
    · rw [if_neg heq]
      have hle : xp.getD j 0 ≤ x := lastLE_le hll
      have hltx : xp.getD j 0 < x := lt_of_le_of_ne hle heq
      have hgt : x < xp.getD (j + 1) 0 := lastLE_gt hll (Nat.lt_succ_self j) hj1
      have hfpj : fp.getD j 0 ≤ fp.getD (j + 1) 0 :=
        sorted_getD_mono hfp (Nat.le_succ j) (hlen ▸ hj1)
      have h5 : 0 ≤ (fp.getD (j + 1) 0 - fp.getD j 0) * (x - xp.getD j 0) /
          (xp.getD (j + 1) 0 - xp.getD j 0) :=
        div_nonneg (mul_nonneg (by linarith) (by linarith)) (by linarith)
      linarith

theorem npInterp_le_getD_succ {x : ℚ} {xp fp : List ℚ} {j : ℕ} (hll : lastLE xp x = some j)
    (hfp : List.Sorted (· ≤ ·) fp) (hlen : xp.length = fp.length)
    (hj1 : j + 1 < xp.length) :
    npInterp x xp fp ≤ fp.getD (j + 1) 0 := by
  rw [npInterp_of_some fp hll]
  have hlast : ¬ (j + 1 = xp.length) := Nat.ne_of_lt hj1
  have hfpj : fp.getD j 0 ≤ fp.getD (j + 1) 0 :=
    sorted_getD_mono hfp (Nat.le_succ j) (hlen ▸ hj1)
  rw [if_neg hlast]
  by_cases heq : xp.getD j 0 = x
  · rw [if_pos heq]
    exact hfpj
  · rw [if_neg heq]
    have hle : xp.getD j 0 ≤ x := lastLE_le hll
    have hltx : xp.getD j 0 < x := lt_of_le_of_ne hle heq
    have hgt : x < xp.getD (j + 1) 0 := lastLE_gt hll (Nat.lt_succ_self j) hj1
    have hd : (0 : ℚ) < xp.getD (j + 1) 0 - xp.getD j 0 := by linarith
    have h8 : (fp.getD (j + 1) 0 - fp.getD j 0) * (x - xp.getD j 0) /
        (xp.getD (j + 1) 0 - xp.getD j 0) ≤ fp.getD (j + 1) 0 - fp.getD j 0 := by
      rw [div_le_iff₀ hd]
      nlinarith [mul_nonneg (by linarith : (0:ℚ) ≤ fp.getD (j + 1) 0 - fp.getD j 0)
        (by linarith : (0:ℚ) ≤ (xp.getD (j + 1) 0 - xp.getD j 0) - (x - xp.getD j 0))]
    linarith

/-- Monotonicity of `np.interp` in its first argument, for non-decreasing `fp`
(and arbitrary `xp`). -/
theorem npInterp_mono {xp fp : List ℚ} (hfp : List.Sorted (· ≤ ·) fp)
    (hlen : xp.length = fp.length) {x y : ℚ} (hxy : x ≤ y) :
    npInterp x xp fp ≤ npInterp y xp fp := by
  cases hlx : lastLE xp x with
  | none =>
    cases hly : lastLE xp y with
    | none => rw [npInterp_of_none fp hlx, npInterp_of_none fp hly]
    | some k =>
      have hk : k < xp.length := lastLE_lt_length hly
      have hkf : k < fp.length := hlen ▸ hk
      have hne : fp ≠ [] := by
        intro hnil; rw [hnil] at hkf; simp at hkf
      have h0 : npInterp x xp fp = fp.headD 0 := npInterp_of_none fp hlx
      have hhead : fp.headD 0 = fp.getD 0 0 := by
        match fp, hne with
        | a :: as, _ => rfl
      have h2 : fp.getD 0 0 ≤ fp.getD k 0 := sorted_getD_mono hfp (Nat.zero_le k) hkf
      have h3 : fp.getD k 0 ≤ npInterp y xp fp := getD_le_npInterp hly hfp hlen
      rw [h0, hhead]; linarith
  | some j =>
    obtain ⟨k0, hk0, hjk⟩ := lastLE_mono hxy hlx
    cases hly : lastLE xp y with
    | none => rw [hly] at hk0; simp at hk0
    | some k =>
      rw [hly] at hk0
      cases hk0
      have hk : k0 < xp.length := lastLE_lt_length hly
      rcases Nat.eq_or_lt_of_le hjk with heqjk | hltjk
      · subst heqjk
        by_cases hlast : j + 1 = xp.length
        · rw [npInterp_of_some fp hlx, npInterp_of_some fp hly, if_pos hlast, if_pos hlast]
        · have hj1 : j + 1 < xp.length := Nat.lt_of_le_of_ne (lastLE_lt_length hlx)
            (fun h2 => hlast h2)
          have hlex : xp.getD j 0 ≤ x := lastLE_le hlx
          have hley : xp.getD j 0 ≤ y := lastLE_le hly
          have hgtx : x < xp.getD (j + 1) 0 := lastLE_gt hlx (Nat.lt_succ_self j) hj1
          have hgty : y < xp.getD (j + 1) 0 := lastLE_gt hly (Nat.lt_succ_self j) hj1
          have hd : (0 : ℚ) < xp.getD (j + 1) 0 - xp.getD j 0 := by linarith
          have hfpj : fp.getD j 0 ≤ fp.getD (j + 1) 0 :=
            sorted_getD_mono hfp (Nat.le_succ j) (hlen ▸ hj1)
          -- both sides reduce to the interpolation formula on `[xp j, xp (j+1)]`
          have hx1 : npInterp x xp fp = fp.getD j 0 + (fp.getD (j + 1) 0 - fp.getD j 0) *
              (x - xp.getD j 0) / (xp.getD (j + 1) 0 - xp.getD j 0) := by
            rw [npInterp_of_some fp hlx, if_neg hlast]
            by_cases heq : xp.getD j 0 = x
            · rw [if_pos heq, ← heq]
              ring
            · rw [if_neg heq]
          have hy1 : npInterp y xp fp = fp.getD j 0 + (fp.getD (j + 1) 0 - fp.getD j 0) *
              (y - xp.getD j 0) / (xp.getD (j + 1) 0 - xp.getD j 0) := by
            rw [npInterp_of_some fp hly, if_neg hlast]
            by_cases heq : xp.getD j 0 = y
            · rw [if_pos heq, ← heq]
              ring
            · rw [if_neg heq]
          rw [hx1, hy1]
          have h7 : (fp.getD (j + 1) 0 - fp.getD j 0) * (x - xp.getD j 0) ≤
              (fp.getD (j + 1) 0 - fp.getD j 0) * (y - xp.getD j 0) :=
            mul_le_mul_of_nonneg_left (by linarith) (by linarith)
          apply add_le_add_left
          rw [div_le_div_iff₀ hd hd]
          exact mul_le_mul_of_nonneg_right h7 (le_of_lt hd)
      · have hj1 : j + 1 < xp.length := Nat.lt_of_le_of_lt hltjk hk
        have h1 : npInterp x xp fp ≤ fp.getD (j + 1) 0 := npInterp_le_getD_succ hlx hfp hlen hj1
        have h2 : fp.getD (j + 1) 0 ≤ fp.getD k0 0 := sorted_getD_mono hfp hltjk (hlen ▸ hk)
        have h3 : fp.getD k0 0 ≤ npInterp y xp fp := getD_le_npInterp hly hfp hlen
        linarith

/-- Ordering of `(value, weight)` pairs by value.  `np.argsort(values)` followed by
fancy-indexing both arrays is modelled as a stable sort of the zipped pairs. -/
def pairLE (a b : ℚ × ℚ) : Prop := a.1 ≤ b.1

instance : DecidableRel pairLE := fun a b => inferInstanceAs (Decidable (a.1 ≤ b.1))

instance : IsTotal (ℚ × ℚ) pairLE := ⟨fun a b => le_total a.1 b.1⟩

instance : IsTrans (ℚ × ℚ) pairLE := ⟨fun _ _ _ h1 h2 => le_trans h1 h2⟩

/-- Sort value/weight pairs by value (the `argsort` + reindex idiom of the source). -/
def sortPairs (l : List (ℚ × ℚ)) : List (ℚ × ℚ) := List.insertionSort pairLE l

theorem sortPairs_perm (l : List (ℚ × ℚ)) : List.Perm (sortPairs l) l :=
  List.perm_insertionSort pairLE l

theorem sortPairs_sorted (l : List (ℚ × ℚ)) : List.Sorted pairLE (sortPairs l) :=
  List.sorted_insertionSort pairLE l

theorem sortPairs_length (l : List (ℚ × ℚ)) : (sortPairs l).length = l.length :=
  (sortPairs_perm l).length_eq

theorem sorted_map_fst {l : List (ℚ × ℚ)} (h : List.Sorted pairLE l) :
    List.Sorted (· ≤ ·) (l.map Prod.fst) := List.Pairwise.map Prod.fst (fun _ _ hab => hab) h

theorem sorted_zip (vs ws : List ℚ) (h : List.Sorted (· ≤ ·) vs) :
    List.Sorted pairLE (vs.zip ws) := by
  induction vs generalizing ws with
  | nil => simp [List.zip]
  | cons a as ih =>
    cases ws with
    | nil => simp [List.zip]
    | cons w ws2 =>
      rw [List.zip_cons_cons, List.sorted_cons]
      rw [List.sorted_cons] at h
      constructor
      · rintro ⟨pv, pw⟩ hp
        exact h.1 pv (List.of_mem_zip hp).1
      · exact ih ws2 h.2

theorem foldl_min_le_init (l : List ℚ) (a : ℚ) : l.foldl min a ≤ a := by
  induction l generalizing a with
  | nil => exact le_refl a
  | cons b bs ih => exact le_trans (ih (min a b)) (min_le_left a b)

theorem foldl_min_le_mem {l : List ℚ} {x : ℚ} (h : x ∈ l) (a : ℚ) : l.foldl min a ≤ x := by
  induction l generalizing a with
  | nil => simp at h
  | cons b bs ih =>
    rcases List.mem_cons.mp h with rfl | hx
    · exact le_trans (foldl_min_le_init bs (min a x)) (min_le_right a x)
    · exact ih hx (min a b)

theorem le_foldl_min {l : List ℚ} {c a : ℚ} (ha : c ≤ a) (h : ∀ x ∈ l, c ≤ x) :
    c ≤ l.foldl min a := by
  induction l generalizing a with
  | nil => exact ha
  | cons b bs ih =>
    exact ih (le_min ha (h b (List.mem_cons_self b bs))) (fun x hx => h x (List.mem_cons_of_mem b hx))

theorem foldl_min_mem (l : List ℚ) (a : ℚ) : l.foldl min a = a ∨ l.foldl min a ∈ l := by
  induction l generalizing a with
  | nil => exact Or.inl rfl
  | cons b bs ih =>
    rw [List.foldl_cons]
    rcases ih (min a b) with h | h
    · rw [h]
      rcases min_choice a b with h2 | h2
      · exact Or.inl h2
      · exact Or.inr (by rw [h2]; exact List.mem_cons_self b bs)
    · exact Or.inr (List.mem_cons_of_mem b h)

theorem npMin_le {l : List ℚ} {x : ℚ} (h : x ∈ l) : npMin l ≤ x := by
  match l, h with
  | a :: as, h =>
    rcases List.mem_cons.mp h with rfl | hx
    · exact foldl_min_le_init as x
    · exact foldl_min_le_mem hx a

theorem le_npMin {l : List ℚ} {c : ℚ} (hne : l ≠ []) (h : ∀ x ∈ l, c ≤ x) : c ≤ npMin l := by
  match l, hne with
  | a :: as, _ =>
    exact le_foldl_min (h a (List.mem_cons_self a as)) (fun x hx => h x (List.mem_cons_of_mem a hx))

theorem npMin_mem {l : List ℚ} (hne : l ≠ []) : npMin l ∈ l := by
  match l, hne with
  | a :: as, _ =>
    show as.foldl min a ∈ a :: as
    rcases foldl_min_mem as a with h | h
    · rw [h]; exact List.mem_cons_self a as
    · exact List.mem_cons_of_mem a h

theorem init_le_foldl_max (l : List ℚ) (a : ℚ) : a ≤ l.foldl max a := by
  induction l generalizing a with
  | nil => exact le_refl a
  | cons b bs ih => exact le_trans (le_max_left a b) (ih (max a b))

theorem mem_le_foldl_max {l : List ℚ} {x : ℚ} (h : x ∈ l) (a : ℚ) : x ≤ l.foldl max a := by
  induction l generalizing a with
  | nil => simp at h
  | cons b bs ih =>
    rcases List.mem_cons.mp h with rfl | hx
    · exact le_trans (le_max_right a x) (init_le_foldl_max bs (max a x))
    · exact ih hx (max a b)

theorem foldl_max_le {l : List ℚ} {c a : ℚ} (ha : a ≤ c) (h : ∀ x ∈ l, x ≤ c) :
    l.foldl max a ≤ c := by
  induction l generalizing a with
  | nil => exact ha
  | cons b bs ih =>
    exact ih (max_le ha (h b (List.mem_cons_self b bs))) (fun x hx => h x (List.mem_cons_of_mem b hx))

theorem foldl_max_mem (l : List ℚ) (a : ℚ) : l.foldl max a = a ∨ l.foldl max a ∈ l := by
  induction l generalizing a with
  | nil => exact Or.inl rfl
  | cons b bs ih =>
    rw [List.foldl_cons]
    rcases ih (max a b) with h | h
    · rw [h]
      rcases max_choice a b with h2 | h2
      · exact Or.inl h2
      · exact Or.inr (by rw [h2]; exact List.mem_cons_self b bs)
    · exact Or.inr (List.mem_cons_of_mem b h)

theorem le_npMax {l : List ℚ} {x : ℚ} (h : x ∈ l) : x ≤ npMax l := by
  match l, h with
  | a :: as, h =>
    rcases List.mem_cons.mp h with rfl | hx
    · exact init_le_foldl_max as x
    · exact mem_le_foldl_max hx a

theorem npMax_le {l : List ℚ} {c : ℚ} (hne : l ≠ []) (h : ∀ x ∈ l, x ≤ c) : npMax l ≤ c := by
  match l, hne with
  | a :: as, _ =>
    exact foldl_max_le (h a (List.mem_cons_self a as)) (fun x hx => h x (List.mem_cons_of_mem a hx))

theorem npMax_mem {l : List ℚ} (hne : l ≠ []) : npMax l ∈ l := by
  match l, hne with
  | a :: as, _ =>
    show as.foldl max a ∈ a :: as
    rcases foldl_max_mem as a with h | h
    · rw [h]; exact List.mem_cons_self a as
    · exact List.mem_cons_of_mem a h

theorem sorted_npMin {l : List ℚ} (h : List.Sorted (· ≤ ·) l) (hne : l ≠ []) :
    npMin l = l.headD 0 := by
  match l, hne with
  | a :: as, _ =>
    show as.foldl min a = a
    have h1 : ∀ x ∈ as, a ≤ x := (List.sorted_cons.mp h).1
    exact le_antisymm (foldl_min_le_init as a) (le_foldl_min (le_refl a) h1)

theorem sorted_npMax {l : List ℚ} (h : List.Sorted (· ≤ ·) l) (hne : l ≠ []) :
    npMax l = l.getLastD 0 := by
  induction l with
  | nil => exact absurd rfl hne
  | cons a as ih =>
    match as, ih with
    | [], _ => rfl
    | b :: bs, ih =>
      have h2 : List.Sorted (· ≤ ·) (b :: bs) := (List.sorted_cons.mp h).2
      have hab : a ≤ b := (List.sorted_cons.mp h).1 b (List.mem_cons_self b bs)
      have ih2 := ih h2 (by simp)
      show (b :: bs).foldl max a = (a :: b :: bs).getLastD 0
      rw [List.foldl_cons, max_eq_right hab]
      have h3 : (a :: b :: bs).getLastD 0 = (b :: bs).getLastD 0 := by simp
      rw [h3, ← ih2]
      rfl

theorem le_pyRound {m : ℤ} {x : ℚ} (h : (m : ℚ) ≤ x) : m ≤ pyRound x := by
  have hf : m ≤ ⌊x⌋ := Int.le_floor.mpr h
  unfold pyRound
  split_ifs <;> omega

theorem pyRound_le {m : ℤ} {x : ℚ} (h : x ≤ (m : ℚ)) : pyRound x ≤ m := by
  have hf : ⌊x⌋ ≤ m := by
    have h2 : ⌊x⌋ ≤ ⌊(m : ℚ)⌋ := Int.floor_le_floor h
    simpa using h2
  unfold pyRound
  rcases eq_or_lt_of_le hf with heq | hlt
  · have hfl : x - (⌊x⌋ : ℚ) < 1/2 := by
      rw [heq]
      linarith
    rw [if_pos hfl, heq]
  · split_ifs <;> omega

/-- Association list lookup over `ℕ` keys (Python dict / defaultdict access). -/
def lookupA {α : Type} : List (ℕ × α) → ℕ → Option α
  | [], _ => none
  | (k, v) :: rest, key => if k = key then some v else lookupA rest key

/-- `defaultdict` read access with a default. -/
def lookupD {α : Type} (l : List (ℕ × α)) (key : ℕ) (d : α) : α := (lookupA l key).getD d

/-- Python `key in dict`. -/
def containsA {α : Type} (l : List (ℕ × α)) (key : ℕ) : Bool := (lookupA l key).isSome

/-- Python `dict[key] = v` (update in place, or append a new entry). -/
def setA {α : Type} : List (ℕ × α) → ℕ → α → List (ℕ × α)
  | [], key, v => [(key, v)]
  | (k, w) :: rest, key, v =>
    if k = key then (k, v) :: rest else (k, w) :: setA rest key v

/-- Association list lookup over `ℤ` keys. -/
def lookupZ {α : Type} : List (ℤ × α) → ℤ → Option α
  | [], _ => none
  | (k, v) :: rest, key => if k = key then some v else lookupZ rest key

/-- `heapq.heappop` modelled as removal of the first minimal element with respect
to the label ordering `lt` (on runs without ties in `lt` this is the element the
Python heap pops). -/
def extractMinBy {α : Type} (lt : α → α → Bool) : List α → Option (α × List α)
  | [] => none
  | x :: xs =>
    match extractMinBy lt xs with
    | none => some (x, [])
    | some (m, rest) => if lt m x then some (m, x :: rest) else some (x, xs)

theorem extractMinBy_mem {α : Type} {lt : α → α → Bool} {l : List α} {m : α} {rest : List α}
    (h : extractMinBy lt l = some (m, rest)) : m ∈ l ∧ ∀ x ∈ rest, x ∈ l := by
  induction l generalizing m rest with
  | nil => simp [extractMinBy] at h
  | cons x xs ih =>
    simp only [extractMinBy] at h
    cases hxs : extractMinBy lt xs with
    | none =>
      rw [hxs] at h
      simp only [Option.some.injEq, Prod.mk.injEq] at h
      obtain ⟨rfl, rfl⟩ := h
      exact ⟨List.mem_cons_self x xs, by simp⟩
    | some p =>
      obtain ⟨m0, rest0⟩ := p
      rw [hxs] at h
      cases hlt : lt m0 x with
      | true =>
        simp only [hlt, if_true, Option.some.injEq, Prod.mk.injEq] at h
        obtain ⟨rfl, rfl⟩ := h
        obtain ⟨h1, h2⟩ := ih hxs
        refine ⟨List.mem_cons_of_mem x h1, ?_⟩
        intro y hy
        rcases List.mem_cons.mp hy with rfl | hy2
        · exact List.mem_cons_self y xs
        · exact List.mem_cons_of_mem x (h2 y hy2)
      | false =>
        simp only [hlt, Bool.false_eq_true, if_false, Option.some.injEq, Prod.mk.injEq] at h
        obtain ⟨rfl, rfl⟩ := h
        exact ⟨List.mem_cons_self x xs, fun y hy => List.mem_cons_of_mem x hy⟩

/-- Ordering of `(key, value)` pairs with integer keys by key (stable model of
`sorted(dict.keys())` applied jointly to keys and values). -/
def zkeyLE {α : Type} (a b : ℤ × α) : Prop := a.1 ≤ b.1

instance {α : Type} : DecidableRel (@zkeyLE α) :=
  fun a b => inferInstanceAs (Decidable (a.1 ≤ b.1))

instance {α : Type} : IsTotal (ℤ × α) zkeyLE := ⟨fun a b => le_total a.1 b.1⟩

instance {α : Type} : IsTrans (ℤ × α) zkeyLE := ⟨fun _ _ _ h1 h2 => le_trans h1 h2⟩

/-- Sort an integer-keyed association list by key. -/
def sortByKey {α : Type} (l : List (ℤ × α)) : List (ℤ × α) := List.insertionSort zkeyLE l

/-- `sorted` on a list of integers. -/
def sortInts (l : List ℤ) : List ℤ := List.insertionSort (· ≤ ·) l

/-- `LinkTimeDistribution` (identical in both solver files; the reverse file's
copy adds `get_probability`/`get_mean`/`get_std`, included here).  `time_prob`
holds the normalized probability dict as a key-sorted association list;
`times` and `cdf` are derived from it exactly as the constructor does. -/
structure LinkTimeDistribution where
  time_prob : List (ℤ × ℚ)
  time_slot : ℤ
deriving DecidableEq

namespace LinkTimeDistribution

/-- `self.times`: the sorted support. -/
def times (d : LinkTimeDistribution) : List ℤ := d.time_prob.map Prod.fst

/-- `self.cdf`: cumulative sums of the normalized probabilities in key order. -/
def cdf (d : LinkTimeDistribution) : List ℚ := cumsum (d.time_prob.map Prod.snd)

end LinkTimeDistribution

/-- The `LinkTimeDistribution.__init__` constructor: rejects an empty dict
(`ValueError`) and a zero total probability (Python `ZeroDivisionError`),
otherwise normalizes and sorts the support. -/
def mkLinkTimeDistribution (raw : List (ℤ × ℚ)) (slot : ℤ) : Option LinkTimeDistribution :=
  if raw = [] then none
  else
    let total := (raw.map Prod.snd).sum
    if total = 0 then none
    else some ⟨(sortByKey raw).map (fun p => (p.1, p.2 / total)), slot⟩

namespace LinkTimeDistribution

/-- Scanning loop of `_inverse_cdf`: first cdf entry at least `q`, interpolating
against the previous entry; falls through to the last support point. -/
def invCdfScan (q : ℚ) (headv lastv : ℤ) : List (ℤ × ℚ) → Option (ℤ × ℚ) → ℤ
  | [], _ => lastv
  | (t, c) :: rest, prev =>
    if q ≤ c then
      match prev with
      | none => headv
      | some (pt, pc) =>
        if pc < c then pyRound ((pt : ℚ) + (q - pc) / (c - pc) * ((t : ℚ) - (pt : ℚ)))
        else pyRound ((pt : ℚ) + (1/2) * ((t : ℚ) - (pt : ℚ)))
    else invCdfScan q headv lastv rest (some (t, c))

/-- `_inverse_cdf` (linear interpolation of the inverse CDF). -/
def inverse_cdf (d : LinkTimeDistribution) (q : ℚ) : ℤ :=
  if q ≤ 0 then d.times.headD 0
  else if 1 ≤ q then d.times.getLastD 0
  else invCdfScan q (d.times.headD 0) (d.times.getLastD 0) (d.times.zip d.cdf) none

/-- `sample_L2_times`: the `L2` deterministic inverse-CDF samples at quantiles
`i/(L2+1)`, sorted (`reference_time` is unused, as in the source). -/
def sample_L2_times (d : LinkTimeDistribution) (_reference_time : ℚ) (L2 : ℕ) : List ℤ :=
  sortInts ((List.range L2).map (fun i => d.inverse_cdf (((i : ℚ) + 1) / ((L2 : ℚ) + 1))))

/-- Scanning loop of `get_probability`: linear interpolation between the two
neighbouring support points (returns `0.0` when the loop falls through). -/
def gpScan (t : ℤ) : List (ℤ × ℚ) → ℚ
  | (t1, p1) :: (t2, p2) :: rest =>
    if t1 ≤ t ∧ t ≤ t2 then
      if t2 = t1 then p1
      else p1 * (1 - ((t : ℚ) - (t1 : ℚ)) / ((t2 : ℚ) - (t1 : ℚ))) +
        p2 * (((t : ℚ) - (t1 : ℚ)) / ((t2 : ℚ) - (t1 : ℚ)))
    else gpScan t ((t2, p2) :: rest)
  | _ => 0

/-- `get_probability`: exact dict hit, else interpolation inside the support
range, else `0.0`. -/
def get_probability (d : LinkTimeDistribution) (travel_time : ℚ) : ℚ :=
  let t := pyRound travel_time
  match lookupZ d.time_prob t with
  | some p => p
  | none =>
    match d.times with
    | [] => 0
    | _ :: _ =>
      if t < d.times.headD 0 ∨ d.times.getLastD 0 < t then 0
      else gpScan t d.time_prob

/-- `get_mean` of a link distribution. -/
def get_mean (d : LinkTimeDistribution) : ℚ :=
  (d.time_prob.map (fun p => (p.1 : ℚ) * p.2)).sum

end LinkTimeDistribution

theorem headD_mem {α : Type} {l : List α} (hne : l ≠ []) (d : α) : l.headD d ∈ l := by
  match l, hne with
  | a :: as, _ => exact List.mem_cons_self a as

theorem getLastD_mem {α : Type} {l : List α} (hne : l ≠ []) (d : α) : l.getLastD d ∈ l := by
  match l, hne with
  | a :: as, _ =>
    have h : (a :: as).getLastD d = (a :: as).getLast (by simp) := List.getLastD_eq_getLast? _ _ ▸
      (by rw [List.getLast?_eq_getLast (a :: as) (by simp)]; rfl)
    rw [h]
    exact List.getLast_mem _

/-- Every inverse-CDF sample lies at or above any uniform lower bound on the support. -/
theorem inverse_cdf_ge {d : LinkTimeDistribution} {c : ℤ}
    (hc : ∀ t ∈ d.times, c ≤ t) (hne : d.times ≠ []) (q : ℚ) :
    c ≤ d.inverse_cdf q := by
  have hhead : c ≤ d.times.headD 0 := hc _ (headD_mem hne 0)
  have hlast : c ≤ d.times.getLastD 0 := hc _ (getLastD_mem hne 0)
  unfold LinkTimeDistribution.inverse_cdf
  split_ifs with h1 h2
  · exact hhead
  · exact hlast
  · -- scan: every pair in the zip has its time in `d.times`
    have hq0 : 0 < q := lt_of_not_le h1
    have hq1 : q < 1 := lt_of_not_le h2
    have key : ∀ (pairs : List (ℤ × ℚ)) (prev : Option (ℤ × ℚ)),
        (∀ p ∈ pairs, c ≤ p.1) →
        (∀ pt pc, prev = some (pt, pc) → c ≤ pt ∧ pc < q) →
        c ≤ LinkTimeDistribution.invCdfScan q (d.times.headD 0) (d.times.getLastD 0) pairs prev := by
      intro pairs
      induction pairs with
      | nil => intro prev _ _; exact hlast
      | cons p rest ih =>
        obtain ⟨t, cv⟩ := p
        intro prev hp hprev
        have hct : c ≤ t := hp (t, cv) (List.mem_cons_self _ _)
        show c ≤ (if q ≤ cv then _ else _)
        by_cases hqc : q ≤ cv
        · rw [if_pos hqc]
          cases prev with
          | none => exact hhead
          | some pr =>
            obtain ⟨pt, pc⟩ := pr
            obtain ⟨hcpt, hpcq⟩ := hprev pt pc rfl
            show c ≤ (if pc < cv then
              pyRound ((pt : ℚ) + (q - pc) / (cv - pc) * ((t : ℚ) - (pt : ℚ)))
              else pyRound ((pt : ℚ) + (1/2) * ((t : ℚ) - (pt : ℚ))))
            by_cases hpcc : pc < cv
            · rw [if_pos hpcc]
              apply le_pyRound
              have hw0 : 0 ≤ (q - pc) / (cv - pc) := div_nonneg (by linarith) (by linarith)
              have hw1 : (q - pc) / (cv - pc) ≤ 1 := by
                rw [div_le_one (by linarith)]
                linarith
              rcases le_total (pt : ℚ) (t : ℚ) with hptt | hptt
              · have h3 : 0 ≤ (q - pc) / (cv - pc) * ((t : ℚ) - (pt : ℚ)) :=
                  mul_nonneg hw0 (by linarith)
                have h4 : (c : ℚ) ≤ (pt : ℚ) := by exact_mod_cast hcpt
                linarith
              · have h3 : (q - pc) / (cv - pc) * ((t : ℚ) - (pt : ℚ)) ≥ ((t : ℚ) - (pt : ℚ)) := by
                  nlinarith
                have h4 : (c : ℚ) ≤ (t : ℚ) := by exact_mod_cast hct
                linarith
            · rw [if_neg hpcc]
              apply le_pyRound
              rcases le_total (pt : ℚ) (t : ℚ) with hptt | hptt
              · have h4 : (c : ℚ) ≤ (pt : ℚ) := by exact_mod_cast hcpt
                nlinarith
              · have h4 : (c : ℚ) ≤ (t : ℚ) := by exact_mod_cast hct
                nlinarith
        · rw [if_neg hqc]
          exact ih (some (t, cv)) (fun p2 hp2 => hp p2 (List.mem_cons_of_mem _ hp2))
            (fun pt pc hpc => by
              cases hpc
              exact ⟨hct, lt_of_not_le hqc⟩)
    apply key
    · intro p hp
      exact hc p.1 ((List.of_mem_zip hp).1)
    · intro pt pc hpc
      cases hpc

/-- `ForwardDiscreteDistribution` (forward arrival-time distribution). -/
structure ForwardDiscreteDistribution where
  values : List ℚ
  L1 : ℕ
  weights : List ℚ
deriving DecidableEq

/-- `ForwardDiscreteDistribution.__init__`: rejects length mismatches
(`ValueError`), renormalizes supplied weights when their sum is positive and
falls back to uniform weights otherwise, then sorts values with their weights. -/
def mkForwardDiscreteDistribution (values : List ℚ) (L1 : ℕ) (weights : Option (List ℚ)) :
    Option ForwardDiscreteDistribution :=
  if values.length ≠ L1 then none
  else
    match weights with
    | none =>
      let pairs := sortPairs (values.zip (uniformW L1))
      some ⟨pairs.map Prod.fst, L1, pairs.map Prod.snd⟩
    | some ws =>
      if ws.length ≠ L1 then none
      else
        let ws2 := if 0 < ws.sum then ws.map (· / ws.sum) else uniformW L1
        let pairs := sortPairs (values.zip ws2)
        some ⟨pairs.map Prod.fst, L1, pairs.map Prod.snd⟩

namespace ForwardDiscreteDistribution

/-- `get_quantile`: clamped weighted inverse CDF with linear interpolation. -/
def get_quantile (d : ForwardDiscreteDistribution) (alpha : ℚ) : ℚ :=
  if alpha ≤ 0 then d.values.headD 0
  else if 1 ≤ alpha then d.values.getLastD 0
  else npInterp alpha (cumsum d.weights) d.values

/-- `get_mean`: the weighted mean `np.sum(values * weights)`. -/
def get_mean (d : ForwardDiscreteDistribution) : ℚ :=
  ((d.values.zip d.weights).map (fun p => p.1 * p.2)).sum

/-- `get_expected` (alias of `get_mean`). -/
def get_expected (d : ForwardDiscreteDistribution) : ℚ := d.get_mean

/-- `get_variance`: the weighted variance. -/
def get_variance (d : ForwardDiscreteDistribution) : ℚ :=
  ((d.values.zip d.weights).map (fun p => p.2 * (p.1 - d.get_mean) ^ 2)).sum

/-- `get_median` = `get_quantile 0.5`. -/
def get_median (d : ForwardDiscreteDistribution) : ℚ := d.get_quantile (1/2)

end ForwardDiscreteDistribution

theorem sum_uniformW {n : ℕ} (h : 1 ≤ n) : (uniformW n).sum = 1 := by
  unfold uniformW
  rw [List.sum_replicate]
  have hn : (n : ℚ) ≠ 0 := Nat.cast_ne_zero.mpr (by omega)
  rw [nsmul_eq_mul]
  field_simp

theorem uniformW_length (n : ℕ) : (uniformW n).length = n := List.length_replicate n _

theorem sum_map_div (l : List ℚ) (s : ℚ) : (l.map (· / s)).sum = l.sum / s := by
  induction l with
  | nil => simp
  | cons a as ih => rw [List.map_cons, List.sum_cons, List.sum_cons, ih, add_div]

theorem mk_fdd_of_bad_length {values : List ℚ} {L1 : ℕ} {weights : Option (List ℚ)}
    (hlen : values.length ≠ L1) :
    mkForwardDiscreteDistribution values L1 weights = none := by
  unfold mkForwardDiscreteDistribution
  rw [if_pos hlen]

theorem mk_fdd_none_eq {values : List ℚ} {L1 : ℕ} (hlen : values.length = L1) :
    mkForwardDiscreteDistribution values L1 none =
      some ⟨(sortPairs (values.zip (uniformW L1))).map Prod.fst, L1,
        (sortPairs (values.zip (uniformW L1))).map Prod.snd⟩ := by
  unfold mkForwardDiscreteDistribution
  rw [if_neg (by simp [hlen])]

theorem mk_fdd_some_of_bad_length {values : List ℚ} {L1 : ℕ} {ws : List ℚ}
    (hws : ws.length ≠ L1) :
    mkForwardDiscreteDistribution values L1 (some ws) = none ∨
      mkForwardDiscreteDistribution values L1 (some ws) = none := by
  by_cases hlen : values.length ≠ L1
  · exact Or.inl (mk_fdd_of_bad_length hlen)
  · left
    unfold mkForwardDiscreteDistribution
    rw [if_neg hlen]
    show (if ws.length ≠ L1 then none else _) = _
    rw [if_pos hws]

theorem mk_fdd_some_eq {values : List ℚ} {L1 : ℕ} {ws : List ℚ}
    (hlen : values.length = L1) (hws : ws.length = L1) :
    mkForwardDiscreteDistribution values L1 (some ws) =
      some ⟨(sortPairs (values.zip
          (if 0 < ws.sum then ws.map (· / ws.sum) else uniformW L1))).map Prod.fst, L1,
        (sortPairs (values.zip
          (if 0 < ws.sum then ws.map (· / ws.sum) else uniformW L1))).map Prod.snd⟩ := by
  unfold mkForwardDiscreteDistribution
  rw [if_neg (by simp [hlen])]
  show (if ws.length ≠ L1 then none else _) = _
  rw [if_neg (by simp [hws])]

/-- The weight vector actually stored by the constructor, before sorting. -/
def fddRawWeights (L1 : ℕ) (weights : Option (List ℚ)) : List ℚ :=
  match weights with
  | none => uniformW L1
  | some ws => if 0 < ws.sum then ws.map (· / ws.sum) else uniformW L1

theorem mk_fdd_eq {values : List ℚ} {L1 : ℕ} {weights : Option (List ℚ)}
    {d : ForwardDiscreteDistribution}
    (h : mkForwardDiscreteDistribution values L1 weights = some d) :
    values.length = L1 ∧ (fddRawWeights L1 weights).length = L1 ∧
      d = ⟨(sortPairs (values.zip (fddRawWeights L1 weights))).map Prod.fst, L1,
        (sortPairs (values.zip (fddRawWeights L1 weights))).map Prod.snd⟩ := by
  by_cases hlen : values.length ≠ L1
  · rw [mk_fdd_of_bad_length hlen] at h; simp at h
  · push_neg at hlen
    cases weights with
    | none =>
      rw [mk_fdd_none_eq hlen] at h
      refine ⟨hlen, uniformW_length L1, ?_⟩
      cases h
      rfl
    | some ws =>
      by_cases hws : ws.length = L1
      · rw [mk_fdd_some_eq hlen hws] at h
        refine ⟨hlen, ?_, ?_⟩
        · show (if 0 < ws.sum then ws.map (· / ws.sum) else uniformW L1).length = L1
          by_cases hsum : 0 < ws.sum
          · rw [if_pos hsum, List.length_map, hws]
          · rw [if_neg hsum, uniformW_length]
        · cases h
          rfl
      · rcases @mk_fdd_some_of_bad_length values L1 ws hws with h2 | h2 <;>
          · rw [h2] at h; simp at h

theorem mk_fdd_lengths {values : List ℚ} {L1 : ℕ} {weights : Option (List ℚ)}
    {d : ForwardDiscreteDistribution}
    (h : mkForwardDiscreteDistribution values L1 weights = some d) :
    d.values.length = L1 ∧ d.weights.length = L1 ∧ d.L1 = L1 := by
  obtain ⟨hlen, hwlen, rfl⟩ := mk_fdd_eq h
  refine ⟨?_, ?_, rfl⟩ <;>
    simp [sortPairs_length, List.length_zip, hlen, hwlen]

theorem mk_fdd_values_sorted {values : List ℚ} {L1 : ℕ} {weights : Option (List ℚ)}
    {d : ForwardDiscreteDistribution}
    (h : mkForwardDiscreteDistribution values L1 weights = some d) :
    List.Sorted (· ≤ ·) d.values := by
  obtain ⟨hlen, hwlen, rfl⟩ := mk_fdd_eq h
  exact sorted_map_fst (sortPairs_sorted _)

theorem mk_fdd_values_perm {values : List ℚ} {L1 : ℕ} {weights : Option (List ℚ)}
    {d : ForwardDiscreteDistribution}
    (h : mkForwardDiscreteDistribution values L1 weights = some d) :
    List.Perm d.values values := by
  obtain ⟨hlen, hwlen, rfl⟩ := mk_fdd_eq h
  show List.Perm ((sortPairs (values.zip (fddRawWeights L1 weights))).map Prod.fst) values
  have h1 := (sortPairs_perm (values.zip (fddRawWeights L1 weights))).map Prod.fst
  have h2 : (values.zip (fddRawWeights L1 weights)).map Prod.fst = values :=
    List.map_fst_zip values _ (by rw [hwlen, hlen])
  rw [h2] at h1
  exact h1

theorem mk_fdd_weights_sum {values : List ℚ} {L1 : ℕ} {weights : Option (List ℚ)}
    {d : ForwardDiscreteDistribution} (hL1 : 1 ≤ L1)
    (h : mkForwardDiscreteDistribution values L1 weights = some d) :
    d.weights.sum = 1 := by
  obtain ⟨hlen, hwlen, rfl⟩ := mk_fdd_eq h
  show ((sortPairs (values.zip (fddRawWeights L1 weights))).map Prod.snd).sum = 1
  have h1 := ((sortPairs_perm (values.zip (fddRawWeights L1 weights))).map Prod.snd).sum_eq
  rw [h1, List.map_snd_zip values _ (by rw [hwlen, hlen])]
  unfold fddRawWeights
  cases weights with
  | none => exact sum_uniformW hL1
  | some ws =>
    show (if 0 < ws.sum then ws.map (· / ws.sum) else uniformW L1).sum = 1
    by_cases hsum : 0 < ws.sum
    · rw [if_pos hsum, sum_map_div, div_self (ne_of_gt hsum)]
    · rw [if_neg hsum]
      exact sum_uniformW hL1

/-- Lookup in the `link_distributions` dict keyed `(u, v, slot)`; the list order
models the Python dict's insertion order. -/
def lookupLink (table : List ((ℕ × ℕ × ℤ) × LinkTimeDistribution)) (u v : ℕ) (slot : ℤ) :
    Option LinkTimeDistribution :=
  match table with
  | [] => none
  | (k, dist) :: rest => if k = (u, v, slot) then some dist else lookupLink rest u v slot

/-- First pair with minimal second component (Python `min(..., key=lambda x: x[1])`). -/
def minPairBySnd : List (ℤ × ℤ) → Option (ℤ × ℤ)
  | [] => none
  | p :: rest =>
    match minPairBySnd rest with
    | none => some p
    | some q => if q.2 < p.2 then some q else some p

/-- `_get_link_distribution_at_slot`: exact hit, else the closest slot for the
same edge within cyclic tolerance 5. -/
def getLinkDistributionAtSlot (table : List ((ℕ × ℕ × ℤ) × LinkTimeDistribution))
    (time_intervals_per_day : ℤ) (u v : ℕ) (slot : ℤ) : Option LinkTimeDistribution :=
  match lookupLink table u v slot with
  | some d => some d
  | none =>
    let candidates := table.filterMap (fun e =>
      if e.1.1 = u ∧ e.1.2.1 = v then
        let diff := |e.1.2.2 - slot|
        let cyclic := min diff (time_intervals_per_day - diff)
        if cyclic ≤ 5 then some (e.1.2.2, cyclic) else none
      else none)
    match minPairBySnd candidates with
    | some best => lookupLink table u v best.1
    | none => none

/-- `_get_available_slots`: the sorted set of slots present for edge `(u, v)`
(the class-level cache is transparent on a fresh run). -/
def availableSlots (table : List ((ℕ × ℕ × ℤ) × LinkTimeDistribution)) (u v : ℕ) : List ℤ :=
  sortInts ((table.filterMap
    (fun e => if e.1.1 = u ∧ e.1.2.1 = v then some e.1.2.2 else none)).dedup)

/-- `_find_nearest_slot`: closest available slot in cyclic distance
(first winner on ties, as in the Python loop with strict `<`). -/
def findNearestSlot (target : ℤ) (available : List ℤ) (time_intervals_per_day : ℤ) : ℤ :=
  match available with
  | [] => 0
  | a :: _ =>
    (available.foldl (fun (best : ℤ × Option ℤ) slot =>
      let diff := |slot - target|
      let cyclic := min diff (time_intervals_per_day - diff)
      match best.2 with
      | none => (slot, some cyclic)
      | some m => if cyclic < m then (slot, some cyclic) else best) (a, none)).1

/-- The link distribution used for one departure time: exact/tolerance lookup,
then the nearest-available-slot fallback. -/
def slotDistributionFor (table : List ((ℕ × ℕ × ℤ) × LinkTimeDistribution))
    (time_intervals_per_day : ℤ) (u v : ℕ) (available : List ℤ) (slot_dep : ℤ) :
    Option LinkTimeDistribution :=
  match getLinkDistributionAtSlot table time_intervals_per_day u v slot_dep with
  | some d => some d
  | none =>
    getLinkDistributionAtSlot table time_intervals_per_day u v
      (findNearestSlot slot_dep available time_intervals_per_day)

/-- The pooled arrival candidates of `forward_convolve` (steps 1-4 of its
docstring): every `(t_dep + travel, w_dep / L2)`, in source order. -/
def forwardRawCandidates (d : ForwardDiscreteDistribution)
    (table : List ((ℕ × ℕ × ℤ) × LinkTimeDistribution)) (current successor : ℕ)
    (time_intervals_per_day : ℤ) (L2 : ℕ) (available : List ℤ) : List (ℚ × ℚ) :=
  (d.values.zip d.weights).flatMap (fun p =>
    let slot_dep : ℤ := (pyInt (p.1 / 10)) % time_intervals_per_day
    match slotDistributionFor table time_intervals_per_day current successor available slot_dep with
    | none => []
    | some D_slot =>
      (D_slot.sample_L2_times p.1 L2).map
        (fun (travel : ℤ) => (p.1 + (travel : ℚ), p.2 / (L2 : ℚ))))

/-- The candidate list after the optional collapse to the internal cap `K`
(quantile resampling with uniform weights when more than `K` candidates pooled). -/
def forwardSelected (pooled : List (ℚ × ℚ)) (K : ℕ) : List (ℚ × ℚ) :=
  if K < pooled.length then
    let cs := cumsum (pooled.map Prod.snd)
    let csn := cs.map (· / cs.getLastD 0)
    let targets := linspace (1 / ((K : ℚ) + 1)) ((K : ℚ) / ((K : ℚ) + 1)) K
    (targets.map (fun q => npInterp q csn (pooled.map Prod.fst))).zip (uniformW K)
  else pooled

/-- Resampling of a candidate list to `L1` evenly-spaced quantile points. -/
def quantileResample (selected : List (ℚ × ℚ)) (L1 : ℕ) : List ℚ :=
  let cs := cumsum (selected.map Prod.snd)
  let csn := cs.map (· / cs.getLastD 0)
  let targets := linspace (1 / ((L1 : ℚ) + 1)) ((L1 : ℚ) / ((L1 : ℚ) + 1)) L1
  targets.map (fun q => npInterp q csn (selected.map Prod.fst))

/-- `ForwardDiscreteDistribution.forward_convolve`.  `none` models the
`ValueError`s (no slots / empty pool) and the `IndexError` on an empty
`cumsum` (reachable only with `K = 0`); the final explicit sort and the
constructor's own sort are both kept. -/
def ForwardDiscreteDistribution.forward_convolve (d : ForwardDiscreteDistribution)
    (table : List ((ℕ × ℕ × ℤ) × LinkTimeDistribution)) (current successor : ℕ)
    (time_intervals_per_day : ℤ) (L2 : ℕ) (K : ℕ) : Option ForwardDiscreteDistribution :=
  let available := availableSlots table current successor
  if available = [] then none
  else
    let raw := forwardRawCandidates d table current successor time_intervals_per_day L2 available
    if raw = [] then none
    else
      let pooled := sortPairs raw
      let selected := forwardSelected pooled K
      if selected.length < d.L1 ∨ d.L1 < selected.length then
        if selected = [] then none
        else
          let final_times := quantileResample selected d.L1
          let finalPairs := sortPairs (final_times.zip (uniformW d.L1))
          mkForwardDiscreteDistribution (finalPairs.map Prod.fst) d.L1
            (some (finalPairs.map Prod.snd))
      else
        let finalPairs := sortPairs ((selected.map Prod.fst).zip (selected.map Prod.snd))
        mkForwardDiscreteDistribution (finalPairs.map Prod.fst) d.L1
          (some (finalPairs.map Prod.snd))

/-- `ForwardLabel` (the cached statistics of `__post_init__` are transparent:
they equal the recomputed values; `std` is irrational and omitted). -/
structure ForwardLabel where
  node_id : ℕ
  distribution : ForwardDiscreteDistribution
  path : List ℕ
  cost : ℚ
  alpha : ℚ
deriving DecidableEq

namespace ForwardLabel

/-- `mean_cache` (computed once in `__post_init__`). -/
def mean_cache (l : ForwardLabel) : ℚ := l.distribution.get_mean

/-- `variance_cache`. -/
def variance_cache (l : ForwardLabel) : ℚ := l.distribution.get_variance

/-- `expected_value` property. -/
def expected_value (l : ForwardLabel) : ℚ := l.mean_cache

/-- `variance_value` property. -/
def variance_value (l : ForwardLabel) : ℚ := l.variance_cache

/-- `get_quantile`. -/
def get_quantile (l : ForwardLabel) (alpha : ℚ) : ℚ := l.distribution.get_quantile alpha

/-- `dominates_weak` (forward dominance; the Python default `epsilon=1e-6` is
passed explicitly at every call site of the embedding). -/
def dominates_weak (self other : ForwardLabel) (alpha epsilon : ℚ) : Bool :=
  if self.node_id ≠ other.node_id then false
  else
    let Q_self := self.distribution.get_quantile alpha
    let Q_other := other.distribution.get_quantile alpha
    if Q_self < Q_other - epsilon then true
    else if |Q_self - Q_other| ≤ epsilon then
      if self.expected_value < other.expected_value - epsilon then true
      else if |self.expected_value - other.expected_value| ≤ epsilon then
        if self.variance_value < other.variance_value - epsilon then true
        else false
      else false
    else false

/-- `dominates` (the unified interface; delegates to `dominates_weak`). -/
def dominates (self other : ForwardLabel) (alpha epsilon : ℚ) : Bool :=
  self.dominates_weak other alpha epsilon

end ForwardLabel

/-- Search statistics (the `stats` defaultdict). -/
structure SearchStats where
  labels_generated : ℕ
  labels_dominated : ℕ
  labels_extended : ℕ
  convolutions : ℕ
deriving DecidableEq

/-- One entry of `destination_candidates` (`std_arrival` holds
`sqrt(variance)` and is omitted; `path_coords` is display-only and omitted). -/
structure ForwardCandidateInfo where
  iteration : ℕ
  path : List ℕ
  distribution : ForwardDiscreteDistribution
  earliest_arrival : ℚ
  expected_arrival : ℚ
  median_arrival : ℚ
  variance : ℚ
  travel_time : ℚ
  label : ForwardLabel
  alpha : ℚ
  rank : Option ℕ
  is_best : Bool
deriving DecidableEq

/-- The forward result dictionary.  Keys absent from a given outcome are
`none`; `total_time`, `path_coords` and `std_arrival_time` are omitted
(wall clock, display-only, and irrational respectively). -/
structure ForwardResult where
  success : Bool
  iterations : ℕ
  stats : SearchStats
  num_candidates : Option ℕ
  path : Option (List ℕ)
  earliest_arrival_time : Option ℚ
  expected_arrival_time : Option ℚ
  median_arrival_time : Option ℚ
  travel_time : Option ℚ
  distribution : Option ForwardDiscreteDistribution
  departure_time : Option ℤ
  top_k_candidates : Option (List ForwardCandidateInfo)
  all_candidates : Option (List ForwardCandidateInfo)
  alpha : Option ℚ
  K : Option ℕ
  origin : Option ℕ
  destination : Option ℕ
deriving DecidableEq

/-- Lexicographic order on score triples (Python tuple comparison, as used by
`sorted(..., key=...)`). -/
def le3 (a b : ℚ × ℚ × ℚ) : Prop :=
  a.1 < b.1 ∨ (a.1 = b.1 ∧ (a.2.1 < b.2.1 ∨ (a.2.1 = b.2.1 ∧ a.2.2 ≤ b.2.2)))

instance : DecidableRel le3 := fun a b => by
  unfold le3
  infer_instance

/-- The precomputed state of `ForwardLabelSettingSolver.__init__` that the
search reads: adjacency and link-distribution tables (built from the raw
sparse samples by the excluded precomputation collaborator) plus the solver
parameters. -/
structure ForwardLabelSettingSolver where
  adj_list : List (ℕ × List ℕ)
  link_distributions : List ((ℕ × ℕ × ℤ) × LinkTimeDistribution)
  time_intervals_per_day : ℤ
  L1 : ℕ
  L2 : ℕ
  K : ℕ
  max_labels_per_node : ℕ

namespace ForwardLabelSettingSolver

/-- `_is_dominated`: under capacity, pruned only when dominated by at least two
survivors; at capacity, pruned when dominated by any survivor. -/
def is_dominated (s : ForwardLabelSettingSolver) (label : ForwardLabel)
    (existing : List ForwardLabel) (alpha : ℚ) : Bool :=
  if existing.length < s.max_labels_per_node then
    2 ≤ (existing.filter (fun e => e.dominates_weak label alpha (1/1000000))).length
  else
    existing.any (fun e => e.dominates_weak label alpha (1/1000000))

/-- `label_score` of `_prune_labels`. -/
def label_score (alpha : ℚ) (l : ForwardLabel) : ℚ × ℚ × ℚ :=
  (l.distribution.get_quantile alpha, l.mean_cache, l.variance_cache)

/-- `_prune_labels`: truncate a node's label list to capacity by score. -/
def prune_labels (s : ForwardLabelSettingSolver) (labels : List ForwardLabel) (alpha : ℚ) :
    List ForwardLabel :=
  if labels.length ≤ s.max_labels_per_node then labels
  else (List.insertionSort (fun a b => le3 (label_score alpha a) (label_score alpha b))
    labels).take s.max_labels_per_node

end ForwardLabelSettingSolver

/-- The mutable state of the forward search loop. -/
structure ForwardSearchState where
  open_labels : List ForwardLabel
  node_labels : List (ℕ × List ForwardLabel)
  destination_candidates : List ForwardCandidateInfo
  stats : SearchStats
  iteration : ℕ

/-- The candidate-path record saved when a label reaches the destination. -/
def mkForwardCandidateInfo (label : ForwardLabel) (iteration : ℕ) (alpha : ℚ)
    (departure_time : ℤ) : ForwardCandidateInfo :=
  let earliest := label.distribution.get_quantile alpha
  { iteration := iteration
    path := label.path
    distribution := label.distribution
    earliest_arrival := earliest
    expected_arrival := label.expected_value
    median_arrival := label.distribution.get_median
    variance := label.variance_value
    travel_time := earliest - (departure_time : ℚ)
    label := label
    alpha := alpha
    rank := none
    is_best := false }

/-- The `for successor in self.adj_list[...]` expansion of one popped label. -/
def forwardExpand (s : ForwardLabelSettingSolver) (alpha : ℚ) (cur : ForwardLabel) :
    List ℕ → ForwardSearchState → ForwardSearchState
  | [], st => st
  | succ :: rest, st =>
    if succ ∈ cur.path then forwardExpand s alpha cur rest st
    else
      match cur.distribution.forward_convolve s.link_distributions cur.node_id succ
          s.time_intervals_per_day s.L2 s.K with
      | none => forwardExpand s alpha cur rest st
      | some new_dist =>
        let st1 := { st with stats := { st.stats with convolutions := st.stats.convolutions + 1 } }
        let new_cost := new_dist.get_quantile alpha
        let new_label : ForwardLabel :=
          { node_id := succ, distribution := new_dist, path := cur.path ++ [succ],
            cost := new_cost, alpha := 19/20 }
        let st2 := { st1 with stats :=
          { st1.stats with labels_generated := st1.stats.labels_generated + 1 } }
        if s.is_dominated new_label (lookupD st2.node_labels succ []) alpha then
          forwardExpand s alpha cur rest { st2 with stats :=
            { st2.stats with labels_dominated := st2.stats.labels_dominated + 1 } }
        else
          let old := lookupD st2.node_labels succ []
          let kept := old.filter (fun o => ¬ new_label.dominates_weak o alpha (1/1000000))
          let st3 := { st2 with stats := { st2.stats with
            labels_dominated := st2.stats.labels_dominated + (old.length - kept.length) } }
          let newList := s.prune_labels (kept ++ [new_label]) alpha
          let st4 := { st3 with
            node_labels := setA st3.node_labels succ newList,
            open_labels := st3.open_labels ++ [new_label] }
          forwardExpand s alpha cur rest st4

/-- The main search loop of `solve_k_paths` (fuel-indexed; the fuel supplied by
`solve_k_paths` strictly exceeds the possible number of iterations, so fuel
exhaustion never fires there). -/
def forwardLoop (s : ForwardLabelSettingSolver) (origin destination : ℕ)
    (departure_time : ℤ) (alpha : ℚ) (K max_labels : ℕ) :
    ℕ → ForwardSearchState → ForwardSearchState
  | 0, st => st
  | fuel + 1, st =>
    if st.open_labels = [] ∨ max_labels ≤ st.stats.labels_generated then st
    else
      match extractMinBy (fun a b => decide (a.cost < b.cost)) st.open_labels with
      | none => st
      | some (cur, restHeap) =>
        let st1 := { st with open_labels := restHeap, iteration := st.iteration + 1 }
        if cur.node_id = destination then
          let cand := mkForwardCandidateInfo cur st1.iteration alpha departure_time
          let st2 := { st1 with destination_candidates := st1.destination_candidates ++ [cand] }
          if K ≤ st2.destination_candidates.length ∧
              2 * K ≤ st2.destination_candidates.length then st2
          else forwardLoop s origin destination departure_time alpha K max_labels fuel st2
        else if s.is_dominated cur (lookupD st1.node_labels cur.node_id []) alpha then
          forwardLoop s origin destination departure_time alpha K max_labels fuel
            { st1 with stats :=
              { st1.stats with labels_dominated := st1.stats.labels_dominated + 1 } }
        else
          let st2 := { st1 with stats :=
            { st1.stats with labels_extended := st1.stats.labels_extended + 1 } }
          if ¬ (containsA s.adj_list cur.node_id) then
            forwardLoop s origin destination departure_time alpha K max_labels fuel st2
          else
            forwardLoop s origin destination departure_time alpha K max_labels fuel
              (forwardExpand s alpha cur (lookupD s.adj_list cur.node_id []) st2)

/-- `rank_score` of the forward K-path sort. -/
def forwardRankScore (c : ForwardCandidateInfo) : ℚ × ℚ × ℚ :=
  (c.earliest_arrival, c.expected_arrival, c.variance)

/-- Ranked candidate list: stable sort by `(Q_alpha, mean, variance)` then
ranks `1..N` with `is_best` on rank 1 (`enumerate(sorted_candidates, 1)`). -/
def forwardRanked (cands : List ForwardCandidateInfo) : List ForwardCandidateInfo :=
  let sorted_candidates :=
    List.insertionSort (fun a b => le3 (forwardRankScore a) (forwardRankScore b)) cands
  (sorted_candidates.zip (List.range sorted_candidates.length)).map
    (fun p => { p.1 with rank := some (p.2 + 1), is_best := p.2 = 0 })

/-- Total size of an adjacency table (used only to size the loop fuel). -/
def totalAdjSize (adj : List (ℕ × List ℕ)) : ℕ := (adj.map (fun p => p.2.length)).sum

/-- A placeholder candidate, returned only where Python would raise
`IndexError` (`top_k_candidates[0]` with `K = 0`). -/
def junkForwardCandidate : ForwardCandidateInfo :=
  mkForwardCandidateInfo ⟨0, ⟨[], 0, []⟩, [], 0, 19/20⟩ 0 0 0

/-- The root label of the forward search: the origin with the degenerate
departure-time distribution. -/
def forwardInitLabel (s : ForwardLabelSettingSolver) (origin : ℕ) (departure_time : ℤ) :
    ForwardLabel :=
  let init_values := List.replicate s.L1 ((departure_time : ℤ) : ℚ)
  let init_dist := (mkForwardDiscreteDistribution init_values s.L1
    (some (uniformW s.L1))).getD ⟨init_values, s.L1, uniformW s.L1⟩
  { node_id := origin, distribution := init_dist, path := [origin],
    cost := ((departure_time : ℤ) : ℚ), alpha := 19/20 }

/-- The initial search state of `solve_k_paths`. -/
def forwardInitState (s : ForwardLabelSettingSolver) (origin : ℕ) (departure_time : ℤ) :
    ForwardSearchState :=
  { open_labels := [forwardInitLabel s origin departure_time]
    node_labels := [(origin, [forwardInitLabel s origin departure_time])]
    destination_candidates := []
    stats := ⟨1, 0, 0, 0⟩
    iteration := 0 }

/-- Fuel for the search loop: strictly more than the number of loop iterations
that can occur (each iteration pops one label; at most `max_labels - 1` pushes
can happen after the budget check passes, plus one final burst bounded by the
adjacency size). -/
def forwardSearchFuel (s : ForwardLabelSettingSolver) (max_labels : ℕ) : ℕ :=
  max_labels + totalAdjSize s.adj_list + 1

/-- `ForwardLabelSettingSolver.solve_k_paths`. -/
def ForwardLabelSettingSolver.solve_k_paths (s : ForwardLabelSettingSolver)
    (origin destination : ℕ) (departure_time : ℤ) (alpha : ℚ) (K : ℕ)
    (max_labels : ℕ) : ForwardResult :=
  let st := forwardLoop s origin destination departure_time alpha K max_labels
    (forwardSearchFuel s max_labels) (forwardInitState s origin departure_time)
  if st.destination_candidates = [] then
    { success := false, iterations := st.iteration, stats := st.stats,
      num_candidates := some 0, path := none, earliest_arrival_time := none,
      expected_arrival_time := none, median_arrival_time := none, travel_time := none,
      distribution := none, departure_time := none, top_k_candidates := none,
      all_candidates := none, alpha := none, K := none, origin := none, destination := none }
  else
    let sorted_candidates := forwardRanked st.destination_candidates
    let top_k := sorted_candidates.take K
    let best := top_k.headD junkForwardCandidate
    { success := true
      iterations := st.iteration
      stats := st.stats
      num_candidates := some st.destination_candidates.length
      path := some best.path
      earliest_arrival_time := some best.earliest_arrival
      expected_arrival_time := some best.expected_arrival
      median_arrival_time := some best.median_arrival
      travel_time := some best.travel_time
      distribution := some best.distribution
      departure_time := some departure_time
      top_k_candidates := some top_k
      all_candidates := some sorted_candidates
      alpha := some alpha
      K := some K
      origin := some origin
      destination := some destination }

/-- `ForwardLabelSettingSolver.solve`: the K-paths search with `K = 1`, with the
K-paths-specific keys popped on success. -/
def ForwardLabelSettingSolver.solve (s : ForwardLabelSettingSolver)
    (origin destination : ℕ) (departure_time : ℤ) (alpha : ℚ) (max_labels : ℕ) :
    ForwardResult :=
  let result := s.solve_k_paths origin destination departure_time alpha 1 max_labels
  if result.success then
    { result with
      top_k_candidates := none, all_candidates := none,
      num_candidates := none, K := none }
  else result

/-- `min` over a list of integers (junk `0` on empty, never consulted). -/
def intMinL (l : List ℤ) : ℤ :=
  match l with
  | [] => 0
  | a :: as => as.foldl min a

/-- `max` over a list of integers. -/
def intMaxL (l : List ℤ) : ℤ :=
  match l with
  | [] => 0
  | a :: as => as.foldl max a

/-- `np.median` (average of the two middle order statistics for even length). -/
def npMedian (l : List ℚ) : ℚ :=
  if l = [] then 0
  else
    let s := List.insertionSort (· ≤ ·) l
    if l.length % 2 = 1 then s.getD (l.length / 2) 0
    else (s.getD (l.length / 2 - 1) 0 + s.getD (l.length / 2) 0) / 2

/-- `AlphaDiscreteDistribution` (reverse departure-time distribution). -/
structure AlphaDiscreteDistribution where
  values : List ℚ
  L1 : ℕ
  weights : List ℚ
deriving DecidableEq

/-- `AlphaDiscreteDistribution.__post_init__`: defaults to uniform weights over
`len(values)`, and renormalizes only when the weight list is nonempty with a
positive sum (otherwise the weights are stored unchanged).  Values are not
sorted and no lengths are checked. -/
def mkAlphaDiscreteDistribution (values : List ℚ) (L1 : ℕ) (weights : Option (List ℚ)) :
    AlphaDiscreteDistribution :=
  let ws := match weights with
    | none => uniformW values.length
    | some w => w
  let ws2 := if ws ≠ [] ∧ 0 < ws.sum then ws.map (· / ws.sum) else ws
  ⟨values, L1, ws2⟩

namespace AlphaDiscreteDistribution

/-- `get_quantile`: sorts values (with weights) on every call, then clamped
weighted interpolation.  The source returns `float('inf')` on an empty value
array; that value has no rational counterpart, and every theorem below
requires nonempty values, so the empty case returns a junk `0`. -/
def get_quantile (d : AlphaDiscreteDistribution) (alpha : ℚ) : ℚ :=
  if d.values = [] then 0
  else if alpha ≤ 0 then npMin d.values
  else if 1 ≤ alpha then npMax d.values
  else
    let sortedPairs := sortPairs (d.values.zip d.weights)
    npInterp alpha (cumsum (sortedPairs.map Prod.snd)) (sortedPairs.map Prod.fst)

/-- `get_mean`. -/
def get_mean (d : AlphaDiscreteDistribution) : ℚ :=
  ((d.values.zip d.weights).map (fun p => p.1 * p.2)).sum

/-- `get_expected` (alias of `get_mean`). -/
def get_expected (d : AlphaDiscreteDistribution) : ℚ := d.get_mean

/-- `get_variance`. -/
def get_variance (d : AlphaDiscreteDistribution) : ℚ :=
  ((d.values.zip d.weights).map (fun p => p.2 * (p.1 - d.get_mean) ^ 2)).sum

/-- `get_median` = `np.median(values)`. -/
def get_median (d : AlphaDiscreteDistribution) : ℚ := npMedian d.values

end AlphaDiscreteDistribution

/-- Accumulate one weight into the arrival-probability dict (insertion order). -/
def addToAssocZ (l : List (ℤ × ℚ)) (k : ℤ) (w : ℚ) : List (ℤ × ℚ) :=
  match l with
  | [] => [(k, w)]
  | (k0, w0) :: rest => if k0 = k then (k0, w0 + w) :: rest else (k0, w0) :: addToAssocZ rest k w

/-- Step 3 of `reverse_convolve` before normalization: the exact discrete
arrival-probability dict keyed by `int(round(t_arr))`. -/
def reverseArrivalProbsRaw (d : AlphaDiscreteDistribution) : List (ℤ × ℚ) :=
  (d.values.zip d.weights).foldl (fun acc p => addToAssocZ acc (pyRound p.1) p.2) []

/-- Step 3 of `reverse_convolve`: normalized when the total is positive. -/
def reverseArrivalProbs (d : AlphaDiscreteDistribution) : List (ℤ × ℚ) :=
  let raw := reverseArrivalProbsRaw d
  let total := (raw.map Prod.snd).sum
  if 0 < total then raw.map (fun p => (p.1, p.2 / total)) else raw

/-- Step 4 of `reverse_convolve`: the departure-probability dict, keeping only
candidates with probability above the `1e-10` threshold (candidate order, which
is ascending departure time). -/
def reverseDepartureProbs (table : List ((ℕ × ℕ × ℤ) × LinkTimeDistribution))
    (time_intervals_per_day : ℤ) (predecessor current : ℕ) (available : List ℤ)
    (arrivalProbs : List (ℤ × ℚ)) (candidates : List ℤ) : List (ℤ × ℚ) :=
  candidates.filterMap (fun (t_dep : ℤ) =>
    let slot_dep := (pyInt ((t_dep : ℚ) / 10)) % time_intervals_per_day
    match slotDistributionFor table time_intervals_per_day predecessor current available
        slot_dep with
    | none => none
    | some D_slot =>
      let prob := (arrivalProbs.map (fun ap =>
        let ptravel := D_slot.get_probability ((ap.1 : ℚ) - (t_dep : ℚ))
        if 0 < ptravel then ap.2 * ptravel else 0)).sum
      if 1 / 10000000000 < prob then some (t_dep, prob) else none)

/-- The pooled support of the edge's link distributions over all available
slots (step 1 of `reverse_convolve`: the travel-time range scan). -/
def reverseTravelTimes (table : List ((ℕ × ℕ × ℤ) × LinkTimeDistribution))
    (predecessor current : ℕ) (time_intervals_per_day : ℤ) : List ℤ :=
  (availableSlots table predecessor current).flatMap (fun slot =>
    match getLinkDistributionAtSlot table time_intervals_per_day predecessor current slot with
    | some D => D.times
    | none => [])

/-- Step 2 of `reverse_convolve`: the candidate departure times
`arange(floor(min_arrival - max_travel), ceil(max_arrival - min_travel) + 1)`. -/
def reverseCandidates (d : AlphaDiscreteDistribution)
    (table : List ((ℕ × ℕ × ℤ) × LinkTimeDistribution)) (predecessor current : ℕ)
    (time_intervals_per_day : ℤ) : List ℤ :=
  let travelTimes := reverseTravelTimes table predecessor current time_intervals_per_day
  arange ⌊npMin d.values - (intMaxL travelTimes : ℚ)⌋
    (⌈npMax d.values - (intMinL travelTimes : ℚ)⌉ + 1)

/-- Steps 1-4 of `reverse_convolve` combined: the departure-probability dict. -/
def reverseDepProbsFull (d : AlphaDiscreteDistribution)
    (table : List ((ℕ × ℕ × ℤ) × LinkTimeDistribution)) (predecessor current : ℕ)
    (time_intervals_per_day : ℤ) : List (ℤ × ℚ) :=
  reverseDepartureProbs table time_intervals_per_day predecessor current
    (availableSlots table predecessor current) (reverseArrivalProbs d)
    (reverseCandidates d table predecessor current time_intervals_per_day)

/-- `AlphaDiscreteDistribution.reverse_convolve` (exact backward aggregation).
`none` models the two `ValueError`s (no slots / no travel-time range); the
`L2` argument is unused, as in the source. -/
def AlphaDiscreteDistribution.reverse_convolve (d : AlphaDiscreteDistribution)
    (table : List ((ℕ × ℕ × ℤ) × LinkTimeDistribution)) (predecessor current : ℕ)
    (time_intervals_per_day : ℤ) (_L2 : ℕ) : Option AlphaDiscreteDistribution :=
  let available := availableSlots table predecessor current
  if available = [] then none
  else
    let travelTimes := reverseTravelTimes table predecessor current time_intervals_per_day
    if travelTimes = [] then none
    else
      let max_travel := intMaxL travelTimes
      let min_departure : ℚ := npMin d.values - (max_travel : ℚ)
      let depProbs := reverseDepProbsFull d table predecessor current time_intervals_per_day
      if depProbs = [] then
        some (mkAlphaDiscreteDistribution [min_departure] 1 (some [1]))
      else
        let total := (depProbs.map Prod.snd).sum
        if total ≤ 1 / 10000000000 then
          let times := (sortByKey depProbs).map Prod.fst
          let n := times.length
          let vals : List ℚ := (if d.L1 < n then times.take d.L1 else times).map (fun z => (z : ℚ))
          let wts := if d.L1 < n then (uniformW n).take d.L1 else uniformW n
          some (mkAlphaDiscreteDistribution vals (min n d.L1) (some wts))
        else
          let depProbs2 := depProbs.map (fun p => (p.1, p.2 / total))
          let sortedDep := sortByKey depProbs2
          let timesQ : List ℚ := sortedDep.map (fun p => ((p.1 : ℤ) : ℚ))
          let probs : List ℚ := sortedDep.map Prod.snd
          let probs2 := if 1 / 1000000 < |probs.sum - 1| then probs.map (· / probs.sum) else probs
          let resampled : List ℚ × List ℚ :=
            if d.L1 < sortedDep.length ∨ sortedDep.length < d.L1 then
              let cdfv := cumsum probs2
              let targets := linspace (1 / ((d.L1 : ℚ) + 1)) ((d.L1 : ℚ) / ((d.L1 : ℚ) + 1)) d.L1
              (targets.map (fun q => npInterp q cdfv timesQ), uniformW d.L1)
            else (timesQ, probs2)
          let pairs := sortPairs (resampled.1.zip resampled.2)
          let sweights0 := pairs.map Prod.snd
          some (mkAlphaDiscreteDistribution (pairs.map Prod.fst) d.L1
            (some (sweights0.map (· / sweights0.sum))))

/-- `ReverseLabel`.  The `quantile_cache` of `__post_init__` is transparent
(`get_cached_quantile` returns exactly `distribution.get_quantile`), and the
cached moments equal the recomputed ones. -/
structure ReverseLabel where
  node_id : ℕ
  distribution : AlphaDiscreteDistribution
  path : List ℕ
  cost : ℚ
deriving DecidableEq

namespace ReverseLabel

/-- `mean_cache`. -/
def mean_cache (l : ReverseLabel) : ℚ := l.distribution.get_mean

/-- `variance_cache`. -/
def variance_cache (l : ReverseLabel) : ℚ := l.distribution.get_variance

/-- `expected_value` property. -/
def expected_value (l : ReverseLabel) : ℚ := l.mean_cache

/-- `variance_value` property. -/
def variance_value (l : ReverseLabel) : ℚ := l.variance_cache

/-- `get_cached_quantile` (the cache is a transparent memo of `get_quantile`). -/
def get_cached_quantile (l : ReverseLabel) (alpha : ℚ) : ℚ :=
  l.distribution.get_quantile alpha

/-- `get_quantile`. -/
def get_quantile (l : ReverseLabel) (alpha : ℚ) : ℚ := l.get_cached_quantile alpha

/-- `dominates_weak` (reverse two-tier multi-objective rule on the `1 - alpha`
quantile; Python default `epsilon=1e-6` passed explicitly at call sites). -/
def dominates_weak (self other : ReverseLabel) (alpha epsilon : ℚ) : Bool :=
  if self.node_id ≠ other.node_id then false
  else
    let Q_self := self.get_cached_quantile (1 - alpha)
    let Q_other := other.get_cached_quantile (1 - alpha)
    let mu_self := self.expected_value
    let mu_other := other.expected_value
    let sigma2_self := self.variance_value
    let sigma2_other := other.variance_value
    if Q_other + epsilon < Q_self ∧ mu_other - epsilon ≤ mu_self ∧
        sigma2_self ≤ sigma2_other + epsilon then true
    else if Q_other - epsilon ≤ Q_self ∧
        (mu_other + epsilon < mu_self ∨ sigma2_self < sigma2_other - epsilon) ∧
        mu_other - epsilon ≤ mu_self ∧ sigma2_self ≤ sigma2_other + epsilon then true
    else false

/-- `dominates` (unified interface). -/
def dominates (self other : ReverseLabel) (alpha epsilon : ℚ) : Bool :=
  self.dominates_weak other alpha epsilon

end ReverseLabel

/-- One entry of `origin_candidates` (`std_departure` = `sqrt(variance)`
omitted). -/
structure ReverseCandidateInfo where
  iteration : ℕ
  path : List ℕ
  distribution : AlphaDiscreteDistribution
  latest_departure : ℚ
  expected_departure : ℚ
  median_departure : ℚ
  variance : ℚ
  label : ReverseLabel
  alpha : ℚ
  rank : Option ℕ
  is_best : Bool
deriving DecidableEq

/-- The reverse result dictionary (`total_time` and `std_departure_time`
omitted as in the forward case; `all_paths`/`num_candidate_paths` are the
compatibility aliases added only by `solve`). -/
structure ReverseResult where
  success : Bool
  iterations : ℕ
  stats : SearchStats
  num_candidates : Option ℕ
  path : Option (List ℕ)
  latest_departure_time : Option ℚ
  expected_departure_time : Option ℚ
  median_departure_time : Option ℚ
  reserved_time : Option ℚ
  distribution : Option AlphaDiscreteDistribution
  top_k_candidates : Option (List ReverseCandidateInfo)
  all_candidates : Option (List ReverseCandidateInfo)
  alpha : Option ℚ
  K : Option ℕ
  origin : Option ℕ
  destination : Option ℕ
  target_arrival_time : Option ℤ
  all_paths : Option (List ReverseCandidateInfo)
  num_candidate_paths : Option ℕ
deriving DecidableEq

/-- The precomputed state of `ReverseLabelSettingSolver.__init__` read by the
search. -/
structure ReverseLabelSettingSolver where
  adj_list : List (ℕ × List ℕ)
  reverse_adj_list : List (ℕ × List ℕ)
  link_distributions : List ((ℕ × ℕ × ℤ) × LinkTimeDistribution)
  time_intervals_per_day : ℤ
  L1 : ℕ
  L2 : ℕ
  K : ℕ
  max_labels_per_node : ℕ

namespace ReverseLabelSettingSolver

/-- `_is_dominated` (conservative tiering identical to the forward one). -/
def is_dominated (s : ReverseLabelSettingSolver) (label : ReverseLabel)
    (existing : List ReverseLabel) (alpha : ℚ) : Bool :=
  if existing.length < s.max_labels_per_node then
    2 ≤ (existing.filter (fun e => e.dominates_weak label alpha (1/1000000))).length
  else
    existing.any (fun e => e.dominates_weak label alpha (1/1000000))

/-- `label_score` of the reverse `_prune_labels`: `(Q_{1-alpha}, mean, -var)`. -/
def label_score (alpha : ℚ) (l : ReverseLabel) : ℚ × ℚ × ℚ :=
  (l.distribution.get_quantile (1 - alpha), l.mean_cache, -l.variance_cache)

/-- `_prune_labels`: keep the best `max_labels_per_node` labels in descending
score order (`sorted(..., reverse=True)`). -/
def prune_labels (s : ReverseLabelSettingSolver) (labels : List ReverseLabel) (alpha : ℚ) :
    List ReverseLabel :=
  if labels.length ≤ s.max_labels_per_node then labels
  else (List.insertionSort (fun a b => le3 (label_score alpha b) (label_score alpha a))
    labels).take s.max_labels_per_node

end ReverseLabelSettingSolver

/-- The mutable state of the reverse search loop. -/
structure ReverseSearchState where
  open_labels : List ReverseLabel
  node_labels : List (ℕ × List ReverseLabel)
  origin_candidates : List ReverseCandidateInfo
  stats : SearchStats
  iteration : ℕ

/-- The candidate-path record saved when a label reaches the origin; its
`path` is the reversal of the label's destination-rooted path. -/
def mkReverseCandidateInfo (label : ReverseLabel) (iteration : ℕ) (alpha : ℚ) :
    ReverseCandidateInfo :=
  { iteration := iteration
    path := label.path.reverse
    distribution := label.distribution
    latest_departure := label.distribution.get_quantile (1 - alpha)
    expected_departure := label.mean_cache
    median_departure := label.distribution.get_median
    variance := label.variance_cache
    label := label
    alpha := alpha
    rank := none
    is_best := false }

/-- The `for predecessor in self.reverse_adj_list[...]` expansion. -/
def reverseExpand (s : ReverseLabelSettingSolver) (alpha : ℚ) (cur : ReverseLabel) :
    List ℕ → ReverseSearchState → ReverseSearchState
  | [], st => st
  | pred :: rest, st =>
    if pred ∈ cur.path then reverseExpand s alpha cur rest st
    else
      match cur.distribution.reverse_convolve s.link_distributions pred cur.node_id
          s.time_intervals_per_day s.L2 with
      | none => reverseExpand s alpha cur rest st
      | some new_dist =>
        let st1 := { st with stats := { st.stats with convolutions := st.stats.convolutions + 1 } }
        let new_cost := new_dist.get_quantile (1 - alpha)
        let new_label : ReverseLabel :=
          { node_id := pred, distribution := new_dist, path := cur.path ++ [pred],
            cost := new_cost }
        let st2 := { st1 with stats :=
          { st1.stats with labels_generated := st1.stats.labels_generated + 1 } }
        if s.is_dominated new_label (lookupD st2.node_labels pred []) alpha then
          reverseExpand s alpha cur rest { st2 with stats :=
            { st2.stats with labels_dominated := st2.stats.labels_dominated + 1 } }
        else
          let old := lookupD st2.node_labels pred []
          let kept := old.filter (fun o => ¬ new_label.dominates_weak o alpha (1/1000000))
          let st3 := { st2 with stats := { st2.stats with
            labels_dominated := st2.stats.labels_dominated + (old.length - kept.length) } }
          let newList := s.prune_labels (kept ++ [new_label]) alpha
          let st4 := { st3 with
            node_labels := setA st3.node_labels pred newList,
            open_labels := st3.open_labels ++ [new_label] }
          reverseExpand s alpha cur rest st4

/-- The reverse search loop (max-heap: pop the label of largest `cost`). -/
def reverseLoop (s : ReverseLabelSettingSolver) (origin destination : ℕ)
    (alpha : ℚ) (K max_labels : ℕ) :
    ℕ → ReverseSearchState → ReverseSearchState
  | 0, st => st
  | fuel + 1, st =>
    if st.open_labels = [] ∨ max_labels ≤ st.stats.labels_generated then st
    else
      match extractMinBy (fun a b => decide (b.cost < a.cost)) st.open_labels with
      | none => st
      | some (cur, restHeap) =>
        let st1 := { st with open_labels := restHeap, iteration := st.iteration + 1 }
        if cur.node_id = origin then
          let cand := mkReverseCandidateInfo cur st1.iteration alpha
          let st2 := { st1 with origin_candidates := st1.origin_candidates ++ [cand] }
          if K ≤ st2.origin_candidates.length ∧ 2 * K ≤ st2.origin_candidates.length then st2
          else reverseLoop s origin destination alpha K max_labels fuel st2
        else if s.is_dominated cur (lookupD st1.node_labels cur.node_id []) alpha then
          reverseLoop s origin destination alpha K max_labels fuel
            { st1 with stats :=
              { st1.stats with labels_dominated := st1.stats.labels_dominated + 1 } }
        else
          let st2 := { st1 with stats :=
            { st1.stats with labels_extended := st1.stats.labels_extended + 1 } }
          if ¬ (containsA s.reverse_adj_list cur.node_id) then
            reverseLoop s origin destination alpha K max_labels fuel st2
          else
            reverseLoop s origin destination alpha K max_labels fuel
              (reverseExpand s alpha cur (lookupD s.reverse_adj_list cur.node_id []) st2)

/-- `rank_score` of the reverse K-path sort: `(Q_{1-alpha}, mean, -var)`,
sorted descending. -/
def reverseRankScore (c : ReverseCandidateInfo) : ℚ × ℚ × ℚ :=
  (c.latest_departure, c.expected_departure, -c.variance)

/-- Ranked reverse candidates (stable descending sort, ranks `1..N`). -/
def reverseRanked (cands : List ReverseCandidateInfo) : List ReverseCandidateInfo :=
  let sorted_candidates :=
    List.insertionSort (fun a b => le3 (reverseRankScore b) (reverseRankScore a)) cands
  (sorted_candidates.zip (List.range sorted_candidates.length)).map
    (fun p => { p.1 with rank := some (p.2 + 1), is_best := p.2 = 0 })

/-- A placeholder reverse candidate (only where Python would raise
`IndexError` with `K = 0`). -/
def junkReverseCandidate : ReverseCandidateInfo :=
  mkReverseCandidateInfo ⟨0, ⟨[], 0, []⟩, [], 0⟩ 0 0

/-- The root label of the reverse search: the destination with the degenerate
target-arrival-time distribution. -/
def reverseInitLabel (s : ReverseLabelSettingSolver) (destination : ℕ)
    (target_arrival_time : ℤ) : ReverseLabel :=
  { node_id := destination
    distribution := mkAlphaDiscreteDistribution
      (List.replicate s.L1 ((target_arrival_time : ℤ) : ℚ)) s.L1 none
    path := [destination]
    cost := ((target_arrival_time : ℤ) : ℚ) }

/-- The initial search state of the reverse `solve_k_paths`. -/
def reverseInitState (s : ReverseLabelSettingSolver) (destination : ℕ)
    (target_arrival_time : ℤ) : ReverseSearchState :=
  { open_labels := [reverseInitLabel s destination target_arrival_time]
    node_labels := [(destination, [reverseInitLabel s destination target_arrival_time])]
    origin_candidates := []
    stats := ⟨1, 0, 0, 0⟩
    iteration := 0 }

/-- Fuel for the reverse search loop (same bound as the forward one). -/
def reverseSearchFuel (s : ReverseLabelSettingSolver) (max_labels : ℕ) : ℕ :=
  max_labels + totalAdjSize s.reverse_adj_list + 1

/-- `ReverseLabelSettingSolver.solve_k_paths`. -/
def ReverseLabelSettingSolver.solve_k_paths (s : ReverseLabelSettingSolver)
    (origin destination : ℕ) (target_arrival_time : ℤ) (alpha : ℚ) (K : ℕ)
    (max_labels : ℕ) : ReverseResult :=
  let st := reverseLoop s origin destination alpha K max_labels
    (reverseSearchFuel s max_labels) (reverseInitState s destination target_arrival_time)
  if st.origin_candidates = [] then
    { success := false, iterations := st.iteration, stats := st.stats,
      num_candidates := some 0, path := none, latest_departure_time := none,
      expected_departure_time := none, median_departure_time := none, reserved_time := none,
      distribution := none, top_k_candidates := none, all_candidates := none, alpha := none,
      K := none, origin := none, destination := none, target_arrival_time := none,
      all_paths := none, num_candidate_paths := none }
  else
    let sorted_candidates := reverseRanked st.origin_candidates
    let top_k := sorted_candidates.take K
    let best := top_k.headD junkReverseCandidate
    { success := true
      iterations := st.iteration
      stats := st.stats
      num_candidates := some st.origin_candidates.length
      path := some best.path
      latest_departure_time := some best.latest_departure
      expected_departure_time := some best.expected_departure
      median_departure_time := some best.median_departure
      reserved_time := some ((target_arrival_time : ℚ) - best.latest_departure)
      distribution := some best.distribution
      top_k_candidates := some top_k
      all_candidates := some sorted_candidates
      alpha := some alpha
      K := some K
      origin := some origin
      destination := some destination
      target_arrival_time := some target_arrival_time
      all_paths := none
      num_candidate_paths := none }

/-- `ReverseLabelSettingSolver.solve`: forwards its own `K` (default 5 in the
source) to `solve_k_paths` and, when `all_candidates` is present, adds the
`all_paths`/`num_candidate_paths` compatibility aliases (`save_all_paths`
defaults to true). -/
def ReverseLabelSettingSolver.solve (s : ReverseLabelSettingSolver)
    (origin destination : ℕ) (target_arrival_time : ℤ) (alpha : ℚ)
    (max_labels : ℕ) (K : ℕ) : ReverseResult :=
  let result := s.solve_k_paths origin destination target_arrival_time alpha K max_labels
  if result.all_candidates.isSome then
    { result with
      all_paths := result.all_candidates,
      num_candidate_paths := result.num_candidates }
  else result

/-- Point-mass link distribution `{travel=10: p=1.0}` at a given slot. -/
def linkD10 (slot : ℤ) : LinkTimeDistribution :=
  (mkLinkTimeDistribution [(10, 1)] slot).getD ⟨[], 0⟩

/-- A single-edge network `1 → 2` whose link distribution is the point mass
`{10: 1.0}` at all three time slots. -/
def fwdTable : List ((ℕ × ℕ × ℤ) × LinkTimeDistribution) :=
  [((1, 2, 0), linkD10 0), ((1, 2, 1), linkD10 1), ((1, 2, 2), linkD10 2)]

/-- Reverse solver over the single-edge point-mass network. -/
def ctxC9 : ReverseLabelSettingSolver :=
  { adj_list := [(1, [2])]
    reverse_adj_list := [(2, [1])]
    link_distributions := fwdTable
    time_intervals_per_day := 3
    L1 := 5
    L2 := 10
    K := 10
    max_labels_per_node := 20 }

/-- Forward solver over the single-edge point-mass network. -/
def ctxF : ForwardLabelSettingSolver :=
  { adj_list := [(1, [2])]
    link_distributions := fwdTable
    time_intervals_per_day := 3
    L1 := 5
    L2 := 10
    K := 100
    max_labels_per_node := 20 }

/-- C9's claim, restated: on the single-edge network with point-mass travel
time 10 at every slot, the reverse K-paths search for target arrival 100 at
`alpha = 0.5` succeeds with latest departure 90, reserved time 10, and path
`[1, 2]`. -/
theorem C9_reverse_point_mass_scenario :
    (ctxC9.solve_k_paths 1 2 100 (1/2) 1 1000).success = true ∧
    (ctxC9.solve_k_paths 1 2 100 (1/2) 1 1000).latest_departure_time = some 90 ∧
    (ctxC9.solve_k_paths 1 2 100 (1/2) 1 1000).reserved_time = some 10 ∧
    (ctxC9.solve_k_paths 1 2 100 (1/2) 1 1000).reserved_time =
      some ((100 : ℚ) - 90) ∧
    (ctxC9.solve_k_paths 1 2 100 (1/2) 1 1000).path = some [1, 2] := by
  refine ⟨by decide!, by decide!, by decide!, by decide!, by decide!⟩

/-- C6's claim fails on the reverse solver: `solve` called as
`solve(origin, destination, time, alpha, max_labels)` (so with its default
`K = 5`) does not return the `K = 1` K-paths result with the K-paths-specific
fields removed — it keeps them (its `K` field is 5, `top_k_candidates` is
present) and adds `all_paths`/`num_candidate_paths`. -/
theorem C6_counterexample :
    ctxC9.solve 1 2 100 (1/2) 1000 5 ≠
      (let r := ctxC9.solve_k_paths 1 2 100 (1/2) 1 1000
       if r.success then
         { r with
           top_k_candidates := none, all_candidates := none,
           num_candidates := none, K := none }
       else r) ∧
    (ctxC9.solve 1 2 100 (1/2) 1000 5).K = some 5 ∧
    (ctxC9.solve 1 2 100 (1/2) 1000 5).top_k_candidates.isSome = true ∧
    (ctxC9.solve 1 2 100 (1/2) 1000 5).all_paths.isSome = true := by
  refine ⟨by decide!, by decide!, by decide!, by decide!⟩

/-- C6, amended: the forward `solve` is exactly `solve_k_paths` with `K = 1`
and the four K-paths-specific fields removed on success; the reverse `solve`
instead forwards its own `K` argument (default 5) to `solve_k_paths`, removes
nothing, and on success adds the `all_paths` and `num_candidate_paths`
aliases. -/
theorem C6_amended_solve_vs_k_paths :
    (∀ (s : ForwardLabelSettingSolver) (origin destination : ℕ) (departure_time : ℤ)
      (alpha : ℚ) (max_labels : ℕ),
      s.solve origin destination departure_time alpha max_labels =
        (let r := s.solve_k_paths origin destination departure_time alpha 1 max_labels
         if r.success then
           { r with
             top_k_candidates := none, all_candidates := none,
             num_candidates := none, K := none }
         else r)) ∧
    (∀ (s : ReverseLabelSettingSolver) (origin destination : ℕ) (target_arrival_time : ℤ)
      (alpha : ℚ) (max_labels K : ℕ),
      s.solve origin destination target_arrival_time alpha max_labels K =
        (let r := s.solve_k_paths origin destination target_arrival_time alpha K max_labels
         if r.all_candidates.isSome then
           { r with all_paths := r.all_candidates, num_candidate_paths := r.num_candidates }
         else r)) := by
  exact ⟨fun _ _ _ _ _ _ => rfl, fun _ _ _ _ _ _ _ => rfl⟩

/-- C5's claim fails on the reverse variant: `AlphaDiscreteDistribution`
construction with supplied weights of non-positive sum keeps them unchanged
(no uniform fallback), so the stored weights do not sum to 1. -/
theorem C5_counterexample :
    (mkAlphaDiscreteDistribution [1, 2] 2 (some [0, 0])).weights = [0, 0] ∧
    (mkAlphaDiscreteDistribution [1, 2] 2 (some [0, 0])).weights.sum = 0 ∧
    (0 : ℚ) ≠ 1 := by
  refine ⟨by decide!, by decide!, by decide!⟩

/-- C5, amended: the forward constructor renormalizes positive-sum weights and
falls back to uniform weights on a non-positive sum, so its stored weights
always sum to 1 (for `L1 ≥ 1`); the reverse constructor renormalizes only
when the supplied weights are nonempty with positive sum and otherwise stores
them unchanged (omitted weights become uniform over the values and sum to 1
when the values are nonempty). -/
theorem C5_amended_weight_normalization :
    (∀ (values : List ℚ) (L1 : ℕ) (weights : Option (List ℚ))
      (d : ForwardDiscreteDistribution), 1 ≤ L1 →
      mkForwardDiscreteDistribution values L1 weights = some d → d.weights.sum = 1) ∧
    (∀ (values : List ℚ) (L1 : ℕ) (ws : List ℚ), 0 < ws.sum →
      (mkAlphaDiscreteDistribution values L1 (some ws)).weights.sum = 1) ∧
    (∀ (values : List ℚ) (L1 : ℕ) (ws : List ℚ), ws.sum ≤ 0 →
      (mkAlphaDiscreteDistribution values L1 (some ws)).weights = ws) ∧
    (∀ (values : List ℚ) (L1 : ℕ), values ≠ [] →
      (mkAlphaDiscreteDistribution values L1 none).weights.sum = 1) := by
  refine ⟨fun values L1 weights d h1 h2 => mk_fdd_weights_sum h1 h2, ?_, ?_, ?_⟩
  · intro values L1 ws hsum
    have hne : ws ≠ [] := by
      intro h
      rw [h] at hsum
      simp at hsum
    show (if ws ≠ [] ∧ 0 < ws.sum then ws.map (· / ws.sum) else ws).sum = 1
    rw [if_pos ⟨hne, hsum⟩, sum_map_div, div_self (ne_of_gt hsum)]
  · intro values L1 ws hsum
    show (if ws ≠ [] ∧ 0 < ws.sum then ws.map (· / ws.sum) else ws) = ws
    rw [if_neg]
    rintro ⟨-, h2⟩
    linarith
  · intro values L1 hne
    show (if uniformW values.length ≠ [] ∧ 0 < (uniformW values.length).sum
      then (uniformW values.length).map (· / (uniformW values.length).sum)
      else uniformW values.length).sum = 1
    have hv : 1 ≤ values.length := by
      cases values with
      | nil => exact absurd rfl hne
      | cons a as => simp
    have hsum : (uniformW values.length).sum = 1 := sum_uniformW hv
    have hne2 : uniformW values.length ≠ [] := by
      unfold uniformW
      cases values with
      | nil => exact absurd rfl hne
      | cons a as => simp
    rw [if_pos ⟨hne2, by rw [hsum]; norm_num⟩, sum_map_div, hsum, div_one]

/-- Witness for the amended C5 at concrete inputs. -/
theorem C5_amended_witness :
    ((mkForwardDiscreteDistribution [3, 1] 2 (some [-1, -2])).map
      (fun d => d.weights.sum) = some 1) ∧
    (mkAlphaDiscreteDistribution [3, 1] 2 (some [1, 3])).weights.sum = 1 ∧
    (mkAlphaDiscreteDistribution [3, 1] 2 (some [1, -3])).weights = [1, -3] ∧
    (mkAlphaDiscreteDistribution [3, 1] 2 none).weights.sum = 1 := by
  refine ⟨?_, C5_amended_weight_normalization.2.1 [3, 1] 2 [1, 3] (by norm_num),
    C5_amended_weight_normalization.2.2.1 [3, 1] 2 [1, -3] (by norm_num),
    C5_amended_weight_normalization.2.2.2 [3, 1] 2 (by decide!)⟩
  have h := C5_amended_weight_normalization.1 [3, 1] 2 (some [-1, -2])
    ((mkForwardDiscreteDistribution [3, 1] 2 (some [-1, -2])).getD ⟨[], 0, []⟩)
    (by norm_num) (by decide!)
  rw [show mkForwardDiscreteDistribution [3, 1] 2 (some [-1, -2]) =
    some ((mkForwardDiscreteDistribution [3, 1] 2 (some [-1, -2])).getD ⟨[], 0, []⟩) from by decide!]
  show some (((mkForwardDiscreteDistribution [3, 1] 2
    (some [-1, -2])).getD ⟨[], 0, []⟩).weights.sum) = some 1
  exact congrArg some h

/-- C8: when the search loop ends (open queue exhausted or label budget hit,
which is exactly when `forwardLoop`/`reverseLoop` return) with zero completed
candidates, both `solve_k_paths` methods return the structured failure
dictionary carrying the search statistics — a value, not an exception (the
embedding is total; per-edge convolution failures are skips inside the loop). -/
theorem C8_exhaustion_structured_failure :
    (∀ (s : ForwardLabelSettingSolver) (origin destination : ℕ) (departure_time : ℤ)
      (alpha : ℚ) (K max_labels : ℕ),
      (forwardLoop s origin destination departure_time alpha K max_labels
        (forwardSearchFuel s max_labels)
        (forwardInitState s origin departure_time)).destination_candidates = [] →
      s.solve_k_paths origin destination departure_time alpha K max_labels =
        { success := false
          iterations := (forwardLoop s origin destination departure_time alpha K max_labels
            (forwardSearchFuel s max_labels) (forwardInitState s origin departure_time)).iteration
          stats := (forwardLoop s origin destination departure_time alpha K max_labels
            (forwardSearchFuel s max_labels) (forwardInitState s origin departure_time)).stats
          num_candidates := some 0
          path := none, earliest_arrival_time := none, expected_arrival_time := none
          median_arrival_time := none, travel_time := none, distribution := none
          departure_time := none, top_k_candidates := none, all_candidates := none
          alpha := none, K := none, origin := none, destination := none }) ∧
    (∀ (s : ReverseLabelSettingSolver) (origin destination : ℕ) (target_arrival_time : ℤ)
      (alpha : ℚ) (K max_labels : ℕ),
      (reverseLoop s origin destination alpha K max_labels
        (reverseSearchFuel s max_labels)
        (reverseInitState s destination target_arrival_time)).origin_candidates = [] →
      s.solve_k_paths origin destination target_arrival_time alpha K max_labels =
        { success := false
          iterations := (reverseLoop s origin destination alpha K max_labels
            (reverseSearchFuel s max_labels)
            (reverseInitState s destination target_arrival_time)).iteration
          stats := (reverseLoop s origin destination alpha K max_labels
            (reverseSearchFuel s max_labels)
            (reverseInitState s destination target_arrival_time)).stats
          num_candidates := some 0
          path := none, latest_departure_time := none, expected_departure_time := none
          median_departure_time := none, reserved_time := none, distribution := none
          top_k_candidates := none, all_candidates := none, alpha := none, K := none
          origin := none, destination := none, target_arrival_time := none
          all_paths := none, num_candidate_paths := none }) := by
  constructor
  · intro s origin destination departure_time alpha K max_labels h
    unfold ForwardLabelSettingSolver.solve_k_paths
    rw [if_pos h]
  · intro s origin destination target_arrival_time alpha K max_labels h
    unfold ReverseLabelSettingSolver.solve_k_paths
    rw [if_pos h]

/-- Witness for C8 on a disconnected origin/destination pair in each
direction: the hypotheses hold concretely and the failure dictionaries match. -/
theorem C8_exhaustion_witness :
    ctxF.solve_k_paths 1 3 0 (1/2) 1 1000 =
      { success := false
        iterations := (forwardLoop ctxF 1 3 0 (1/2) 1 1000
          (forwardSearchFuel ctxF 1000) (forwardInitState ctxF 1 0)).iteration
        stats := (forwardLoop ctxF 1 3 0 (1/2) 1 1000
          (forwardSearchFuel ctxF 1000) (forwardInitState ctxF 1 0)).stats
        num_candidates := some 0
        path := none, earliest_arrival_time := none, expected_arrival_time := none
        median_arrival_time := none, travel_time := none, distribution := none
        departure_time := none, top_k_candidates := none, all_candidates := none
        alpha := none, K := none, origin := none, destination := none } ∧
    ctxC9.solve_k_paths 3 2 100 (1/2) 1 1000 =
      { success := false
        iterations := (reverseLoop ctxC9 3 2 (1/2) 1 1000
          (reverseSearchFuel ctxC9 1000) (reverseInitState ctxC9 2 100)).iteration
        stats := (reverseLoop ctxC9 3 2 (1/2) 1 1000
          (reverseSearchFuel ctxC9 1000) (reverseInitState ctxC9 2 100)).stats
        num_candidates := some 0
        path := none, latest_departure_time := none, expected_departure_time := none
        median_departure_time := none, reserved_time := none, distribution := none
        top_k_candidates := none, all_candidates := none, alpha := none, K := none
        origin := none, destination := none, target_arrival_time := none
        all_paths := none, num_candidate_paths := none } :=
  ⟨C8_exhaustion_structured_failure.1 ctxF 1 3 0 (1/2) 1 1000 (by decide!),
   C8_exhaustion_structured_failure.2 ctxC9 3 2 100 (1/2) 1 1000 (by decide!)⟩

/-- The two concrete single-point labels of the C3 counterexample. -/
def labelA : ForwardLabel :=
  ⟨7, (mkForwardDiscreteDistribution [100 - 1/2000000] 1 none).getD ⟨[], 0, []⟩, [7], 0, 19/20⟩

/-- Companion label at the same node. -/
def labelB : ForwardLabel :=
  ⟨7, (mkForwardDiscreteDistribution [100] 1 none).getD ⟨[], 0, []⟩, [7], 0, 19/20⟩

/-- C3's claim fails as stated: at the same node with quantiles tied within
`epsilon = 1e-6` and A's mean strictly smaller than B's (but by less than
`epsilon`) and equal variances, the claim's right-hand side holds, yet
`dominates_weak` returns false (the code requires the mean to be smaller by
more than `epsilon`). -/
theorem C3_counterexample :
    labelA.node_id = labelB.node_id ∧
    |labelA.distribution.get_quantile (1/2) - labelB.distribution.get_quantile (1/2)| ≤
      1/1000000 ∧
    labelA.expected_value < labelB.expected_value ∧
    labelA.variance_value = labelB.variance_value ∧
    labelA.dominates_weak labelB (1/2) (1/1000000) = false := by
  refine ⟨by decide!, by decide!, by decide!, by decide!, by decide!⟩

/-- C3, amended: forward `dominates_weak` holds iff the labels share a node and
either A's quantile is smaller than B's by more than `epsilon`, or the
quantiles are tied within `epsilon` and A's mean is smaller by more than
`epsilon`, or quantile and mean are both tied within `epsilon` and A's
variance is smaller by more than `epsilon`; cross-node comparisons are always
false. -/
theorem C3_amended_dominance_characterization (A B : ForwardLabel) (alpha epsilon : ℚ) :
    A.dominates_weak B alpha epsilon = true ↔
      A.node_id = B.node_id ∧
        (A.distribution.get_quantile alpha < B.distribution.get_quantile alpha - epsilon ∨
          (|A.distribution.get_quantile alpha - B.distribution.get_quantile alpha| ≤ epsilon ∧
            A.expected_value < B.expected_value - epsilon) ∨
          (|A.distribution.get_quantile alpha - B.distribution.get_quantile alpha| ≤ epsilon ∧
            |A.expected_value - B.expected_value| ≤ epsilon ∧
            A.variance_value < B.variance_value - epsilon)) := by
  simp only [ForwardLabel.dominates_weak]
  by_cases hn : A.node_id = B.node_id
  · rw [if_neg (not_not_intro hn)]
    by_cases hq1 : A.distribution.get_quantile alpha <
        B.distribution.get_quantile alpha - epsilon
    · rw [if_pos hq1]
      exact ⟨fun _ => ⟨hn, Or.inl hq1⟩, fun _ => rfl⟩
    · rw [if_neg hq1]
      by_cases hq2 : |A.distribution.get_quantile alpha -
          B.distribution.get_quantile alpha| ≤ epsilon
      · rw [if_pos hq2]
        by_cases hm1 : A.expected_value < B.expected_value - epsilon
        · rw [if_pos hm1]
          exact ⟨fun _ => ⟨hn, Or.inr (Or.inl ⟨hq2, hm1⟩)⟩, fun _ => rfl⟩
        · rw [if_neg hm1]
          by_cases hm2 : |A.expected_value - B.expected_value| ≤ epsilon
          · rw [if_pos hm2]
            by_cases hv : A.variance_value < B.variance_value - epsilon
            · rw [if_pos hv]
              exact ⟨fun _ => ⟨hn, Or.inr (Or.inr ⟨hq2, hm2, hv⟩)⟩, fun _ => rfl⟩
            · rw [if_neg hv]
              simp only [Bool.false_eq_true, false_iff]
              rintro ⟨-, hq | ⟨-, hm⟩ | ⟨-, -, hv2⟩⟩
              · exact hq1 hq
              · exact hm1 hm
              · exact hv hv2
          · rw [if_neg hm2]
            simp only [Bool.false_eq_true, false_iff]
            rintro ⟨-, hq | ⟨-, hm⟩ | ⟨-, hm2x, -⟩⟩
            · exact hq1 hq
            · exact hm1 hm
            · exact hm2 hm2x
      · rw [if_neg hq2]
        simp only [Bool.false_eq_true, false_iff]
        rintro ⟨-, hq | ⟨hq2x, -⟩ | ⟨hq2x, -, -⟩⟩
        · exact hq1 hq
        · exact hq2 hq2x
        · exact hq2 hq2x
  · rw [if_pos hn]
    simp only [Bool.false_eq_true, false_iff]
    rintro ⟨h, -⟩
    exact hn h

theorem mem_sortPairs_zip_fst {values ws : List ℚ} {y : ℚ}
    (h : y ∈ (sortPairs (values.zip ws)).map Prod.fst) : y ∈ values := by
  obtain ⟨p, hp, rfl⟩ := List.mem_map.mp h
  exact (List.of_mem_zip ((sortPairs_perm (values.zip ws)).mem_iff.mp hp)).1

theorem fdd_quantile_mono {d : ForwardDiscreteDistribution}
    (hs : List.Sorted (· ≤ ·) d.values) (hne : d.values ≠ [])
    (hlen : d.weights.length = d.values.length) {a b : ℚ} (hab : a ≤ b) :
    d.get_quantile a ≤ d.get_quantile b := by
  have hxplen : (cumsum d.weights).length = d.values.length := by
    rw [cumsum_length, hlen]
  have hminle : ∀ y ∈ d.values, d.values.headD 0 ≤ y := by
    intro y hy
    rw [← sorted_npMin hs hne]
    exact npMin_le hy
  have hmaxge : ∀ y ∈ d.values, y ≤ d.values.getLastD 0 := by
    intro y hy
    rw [← sorted_npMax hs hne]
    exact le_npMax hy
  unfold ForwardDiscreteDistribution.get_quantile
  by_cases ha0 : a ≤ 0
  · rw [if_pos ha0]
    by_cases hb0 : b ≤ 0
    · rw [if_pos hb0]
    · rw [if_neg hb0]
      by_cases hb1 : 1 ≤ b
      · rw [if_pos hb1]
        exact hmaxge _ (headD_mem hne 0)
      · rw [if_neg hb1]
        exact le_npInterp_of_forall_le hminle hne hxplen
  · rw [if_neg ha0]
    have hb0 : ¬ b ≤ 0 := fun h => ha0 (le_trans hab h)
    rw [if_neg hb0]
    by_cases ha1 : 1 ≤ a
    · rw [if_pos ha1, if_pos (le_trans ha1 hab)]
    · rw [if_neg ha1]
      by_cases hb1 : 1 ≤ b
      · rw [if_pos hb1]
        exact npInterp_le_of_forall_le hmaxge hne hxplen
      · rw [if_neg hb1]
        exact npInterp_mono hs hxplen hab

theorem alpha_quantile_mono {d : AlphaDiscreteDistribution} (hne : d.values ≠ [])
    (hlen : d.weights.length = d.values.length) {a b : ℚ} (hab : a ≤ b) :
    d.get_quantile a ≤ d.get_quantile b := by
  have hziplen : (d.values.zip d.weights).length = d.values.length := by
    rw [List.length_zip, hlen, min_self]
  have hfne : (sortPairs (d.values.zip d.weights)).map Prod.fst ≠ [] := by
    intro h
    have h2 := congrArg List.length h
    rw [List.length_map, sortPairs_length, hziplen] at h2
    exact hne (List.length_eq_zero.mp h2)
  have hfsorted : List.Sorted (· ≤ ·) ((sortPairs (d.values.zip d.weights)).map Prod.fst) :=
    sorted_map_fst (sortPairs_sorted _)
  have hxplen : (cumsum ((sortPairs (d.values.zip d.weights)).map Prod.snd)).length =
      ((sortPairs (d.values.zip d.weights)).map Prod.fst).length := by
    rw [cumsum_length, List.length_map, List.length_map]
  have hminle : ∀ y ∈ (sortPairs (d.values.zip d.weights)).map Prod.fst,
      npMin d.values ≤ y :=
    fun y hy => npMin_le (mem_sortPairs_zip_fst hy)
  have hmaxge : ∀ y ∈ (sortPairs (d.values.zip d.weights)).map Prod.fst,
      y ≤ npMax d.values :=
    fun y hy => le_npMax (mem_sortPairs_zip_fst hy)
  unfold AlphaDiscreteDistribution.get_quantile
  rw [if_neg hne, if_neg hne]
  by_cases ha0 : a ≤ 0
  · rw [if_pos ha0]
    by_cases hb0 : b ≤ 0
    · rw [if_pos hb0]
    · rw [if_neg hb0]
      by_cases hb1 : 1 ≤ b
      · rw [if_pos hb1]
        exact npMin_le (npMax_mem hne)
      · rw [if_neg hb1]
        exact le_npInterp_of_forall_le hminle hfne hxplen
  · rw [if_neg ha0]
    have hb0 : ¬ b ≤ 0 := fun h => ha0 (le_trans hab h)
    rw [if_neg hb0]
    by_cases ha1 : 1 ≤ a
    · rw [if_pos ha1, if_pos (le_trans ha1 hab)]
    · rw [if_neg ha1]
      by_cases hb1 : 1 ≤ b
      · rw [if_pos hb1]
        exact npInterp_le_of_forall_le hmaxge hfne hxplen
      · rw [if_neg hb1]
        exact npInterp_mono hfsorted hxplen hab

/-- C4: for every constructed distribution of either variant, `get_quantile 0`
is the minimum value, `get_quantile 1` is the maximum value, and
`get_quantile` is monotonically non-decreasing in alpha.  (The reverse part is
stated for every well-formed `AlphaDiscreteDistribution` — aligned weights,
nonempty values — which includes every constructed one.) -/
theorem C4_quantile_bounds_and_monotonicity :
    (∀ (values : List ℚ) (L1 : ℕ) (weights : Option (List ℚ))
      (d : ForwardDiscreteDistribution),
      mkForwardDiscreteDistribution values L1 weights = some d → d.values ≠ [] →
      d.get_quantile 0 = npMin d.values ∧ d.get_quantile 1 = npMax d.values ∧
        ∀ a b : ℚ, a ≤ b → d.get_quantile a ≤ d.get_quantile b) ∧
    (∀ d : AlphaDiscreteDistribution, d.values ≠ [] →
      d.weights.length = d.values.length →
      d.get_quantile 0 = npMin d.values ∧ d.get_quantile 1 = npMax d.values ∧
        ∀ a b : ℚ, a ≤ b → d.get_quantile a ≤ d.get_quantile b) := by
  constructor
  · intro values L1 weights d hmk hne
    have hs := mk_fdd_values_sorted hmk
    obtain ⟨hvl, hwl, -⟩ := mk_fdd_lengths hmk
    have hlen : d.weights.length = d.values.length := by rw [hvl, hwl]
    refine ⟨?_, ?_, fun a b hab => fdd_quantile_mono hs hne hlen hab⟩
    · unfold ForwardDiscreteDistribution.get_quantile
      rw [if_pos (le_refl (0 : ℚ))]
      exact (sorted_npMin hs hne).symm
    · unfold ForwardDiscreteDistribution.get_quantile
      rw [if_neg (by norm_num : ¬ (1 : ℚ) ≤ 0), if_pos (le_refl (1 : ℚ))]
      exact (sorted_npMax hs hne).symm
  · intro d hne hlen
    refine ⟨?_, ?_, fun a b hab => alpha_quantile_mono hne hlen hab⟩
    · unfold AlphaDiscreteDistribution.get_quantile
      rw [if_neg hne, if_pos (le_refl (0 : ℚ))]
    · unfold AlphaDiscreteDistribution.get_quantile
      rw [if_neg hne, if_neg (by norm_num : ¬ (1 : ℚ) ≤ 0), if_pos (le_refl (1 : ℚ))]

/-- Witness for C4 on concrete two-point distributions of both variants. -/
theorem C4_quantile_witness :
    (((mkForwardDiscreteDistribution [7, 3] 2 (some [1, 1])).getD
        ⟨[], 0, []⟩).get_quantile 0 = 3) ∧
    (((mkForwardDiscreteDistribution [7, 3] 2 (some [1, 1])).getD
        ⟨[], 0, []⟩).get_quantile (1/3) ≤
      ((mkForwardDiscreteDistribution [7, 3] 2 (some [1, 1])).getD
        ⟨[], 0, []⟩).get_quantile (2/3)) ∧
    ((mkAlphaDiscreteDistribution [7, 3] 2 none).get_quantile 1 = 7) ∧
    ((mkAlphaDiscreteDistribution [7, 3] 2 none).get_quantile (1/3) ≤
      (mkAlphaDiscreteDistribution [7, 3] 2 none).get_quantile (2/3)) := by
  have hf := C4_quantile_bounds_and_monotonicity.1 [7, 3] 2 (some [1, 1])
    ((mkForwardDiscreteDistribution [7, 3] 2 (some [1, 1])).getD ⟨[], 0, []⟩)
    (by decide!) (by decide!)
  have ha := C4_quantile_bounds_and_monotonicity.2 (mkAlphaDiscreteDistribution [7, 3] 2 none)
    (by decide!) (by decide!)
  refine ⟨?_, hf.2.2 (1/3) (2/3) (by norm_num), ?_, ha.2.2 (1/3) (2/3) (by norm_num)⟩
  · rw [hf.1]
    decide!
  · rw [ha.2.1]
    decide!

theorem linspace_length (a b : ℚ) (n : ℕ) : (linspace a b n).length = n := by
  unfold linspace
  split_ifs with h1 h2
  · rw [h1]; rfl
  · rw [h2]; rfl
  · rw [List.length_map, List.length_range]

theorem reverseDepartureProbs_pos {table : List ((ℕ × ℕ × ℤ) × LinkTimeDistribution)}
    {T : ℤ} {pred cur : ℕ} {available : List ℤ} {arrivalProbs : List (ℤ × ℚ)}
    {candidates : List ℤ} {p : ℤ × ℚ}
    (hp : p ∈ reverseDepartureProbs table T pred cur available arrivalProbs candidates) :
    1 / 10000000000 < p.2 := by
  unfold reverseDepartureProbs at hp
  obtain ⟨t_dep, htd, heq⟩ := List.mem_filterMap.mp hp
  cases hD : slotDistributionFor table T pred cur available
      ((pyInt ((t_dep : ℚ) / 10)) % T) with
  | none =>
    simp only [hD] at heq
    simp at heq
  | some D =>
    simp only [hD] at heq
    by_cases hc : 1 / 10000000000 < (arrivalProbs.map (fun ap =>
        let ptravel := D.get_probability ((ap.1 : ℚ) - (t_dep : ℚ))
        if 0 < ptravel then ap.2 * ptravel else 0)).sum
    · rw [if_pos hc] at heq
      cases heq
      exact hc
    · rw [if_neg hc] at heq
      simp at heq

theorem sum_gt_of_all_gt {l : List ℚ} {c : ℚ} (hc : 0 ≤ c) (hne : l ≠ [])
    (h : ∀ x ∈ l, c < x) : c < l.sum := by
  match l, hne with
  | a :: as, _ =>
    have h1 : c < a := h a (List.mem_cons_self a as)
    have h2 : 0 ≤ as.sum :=
      List.sum_nonneg (fun x hx => le_trans hc (le_of_lt (h x (List.mem_cons_of_mem _ hx))))
    rw [List.sum_cons]
    linarith

theorem reverse_convolve_len {d : AlphaDiscreteDistribution}
    {table : List ((ℕ × ℕ × ℤ) × LinkTimeDistribution)} {pred cur : ℕ} {T : ℤ} {L2 : ℕ}
    {d2 : AlphaDiscreteDistribution}
    (hdep : reverseDepProbsFull d table pred cur T ≠ [])
    (hs : d.reverse_convolve table pred cur T L2 = some d2) :
    d2.values.length = d.L1 := by
  simp only [AlphaDiscreteDistribution.reverse_convolve] at hs
  by_cases hav : availableSlots table pred cur = []
  · rw [if_pos hav] at hs
    simp at hs
  · rw [if_neg hav] at hs
    by_cases htt : reverseTravelTimes table pred cur T = []
    · rw [if_pos htt] at hs
      simp at hs
    · rw [if_neg htt] at hs
      rw [if_neg hdep] at hs
      have hposall : ∀ x ∈ (reverseDepProbsFull d table pred cur T).map Prod.snd,
          1 / 10000000000 < x := by
        intro x hx
        obtain ⟨p, hp, rfl⟩ := List.mem_map.mp hx
        exact reverseDepartureProbs_pos hp
      have hmapne : (reverseDepProbsFull d table pred cur T).map Prod.snd ≠ [] := by
        intro h2
        exact hdep (List.map_eq_nil_iff.mp h2)
      have hpos : 1 / 10000000000 <
          ((reverseDepProbsFull d table pred cur T).map Prod.snd).sum :=
        sum_gt_of_all_gt (by norm_num) hmapne hposall
      rw [if_neg (not_le.mpr hpos)] at hs
      cases hs
      simp only [mkAlphaDiscreteDistribution, List.length_map, sortPairs_length,
        List.length_zip]
      split
      · rw [List.length_map, linspace_length, uniformW_length, min_self]
      · rename_i hcond
        push_neg at hcond
        have hn : (sortByKey ((reverseDepProbsFull d table pred cur T).map
            (fun p => (p.1, p.2 / ((reverseDepProbsFull d table pred cur T).map
              Prod.snd).sum)))).length = d.L1 := by omega
        rw [List.length_map]
        split
        · rw [List.length_map, List.length_map, hn, min_self]
        · rw [List.length_map, hn, min_self]

theorem forward_convolve_len {d : ForwardDiscreteDistribution}
    {table : List ((ℕ × ℕ × ℤ) × LinkTimeDistribution)} {cur succ : ℕ} {T : ℤ} {L2 K : ℕ}
    {d2 : ForwardDiscreteDistribution}
    (hs : d.forward_convolve table cur succ T L2 K = some d2) :
    d2.values.length = d.L1 ∧ d2.L1 = d.L1 := by
  simp only [ForwardDiscreteDistribution.forward_convolve] at hs
  by_cases h1 : availableSlots table cur succ = []
  · rw [if_pos h1] at hs
    simp at hs
  · rw [if_neg h1] at hs
    by_cases h2 : forwardRawCandidates d table cur succ T L2 (availableSlots table cur succ) = []
    · rw [if_pos h2] at hs
      simp at hs
    · rw [if_neg h2] at hs
      split at hs
      · split at hs
        · simp at hs
        · obtain ⟨h3, -, h5⟩ := mk_fdd_lengths hs
          exact ⟨h3, h5⟩
      · obtain ⟨h3, -, h5⟩ := mk_fdd_lengths hs
        exact ⟨h3, h5⟩

theorem forwardInitLabel_len (s : ForwardLabelSettingSolver) (origin : ℕ) (dep : ℤ) :
    (forwardInitLabel s origin dep).distribution.values.length = s.L1 := by
  unfold forwardInitLabel
  cases hmk : mkForwardDiscreteDistribution (List.replicate s.L1 ((dep : ℤ) : ℚ)) s.L1
      (some (uniformW s.L1)) with
  | none => simp [hmk]
  | some d0 =>
    simp only [hmk, Option.getD_some]
    exact (mk_fdd_lengths hmk).1

theorem reverseInitLabel_len (s : ReverseLabelSettingSolver) (destination : ℕ) (t : ℤ) :
    (reverseInitLabel s destination t).distribution.values.length = s.L1 := by
  simp [reverseInitLabel, mkAlphaDiscreteDistribution]

/-- The zero-weight two-point reverse distribution of the C2/C5 analysis. -/
def distC2 : AlphaDiscreteDistribution := mkAlphaDiscreteDistribution [100, 110] 2 (some [0, 0])

/-- C2's claim fails on the reverse convolution's empty-departure fallback: it
returns the degenerate one-point distribution (length 1), not an `L1`-point
one.  Here `L1 = 2` and the convolution of a constructible zero-weight
distribution over the single-edge network hits that fallback. -/
theorem C2_counterexample :
    distC2.L1 = 2 ∧
    (distC2.reverse_convolve fwdTable 1 2 3 10).map (fun d => d.values.length) = some 1 ∧
    (1 : ℕ) ≠ 2 := by
  refine ⟨by decide!, by decide!, by decide!⟩

/-- C2, amended: the degenerate root distributions of both searches and every
forward-convolution output have exactly `L1` points, and every
reverse-convolution output whose departure-probability dict is nonempty (that
is, every output not produced by the empty-result fallback) has exactly `L1`
points; the empty-result fallback returns a one-point distribution instead. -/
theorem C2_amended_length_invariant :
    (∀ (s : ForwardLabelSettingSolver) (origin : ℕ) (dep : ℤ),
      (forwardInitLabel s origin dep).distribution.values.length = s.L1) ∧
    (∀ (s : ReverseLabelSettingSolver) (destination : ℕ) (t : ℤ),
      (reverseInitLabel s destination t).distribution.values.length = s.L1) ∧
    (∀ (d : ForwardDiscreteDistribution) (table : List ((ℕ × ℕ × ℤ) × LinkTimeDistribution))
      (cur succ : ℕ) (T : ℤ) (L2 K : ℕ) (d2 : ForwardDiscreteDistribution),
      d.forward_convolve table cur succ T L2 K = some d2 → d2.values.length = d.L1) ∧
    (∀ (d : AlphaDiscreteDistribution) (table : List ((ℕ × ℕ × ℤ) × LinkTimeDistribution))
      (pred cur : ℕ) (T : ℤ) (L2 : ℕ) (d2 : AlphaDiscreteDistribution),
      reverseDepProbsFull d table pred cur T ≠ [] →
      d.reverse_convolve table pred cur T L2 = some d2 → d2.values.length = d.L1) :=
  ⟨forwardInitLabel_len, reverseInitLabel_len,
   fun _ _ _ _ _ _ _ _ hs => (forward_convolve_len hs).1,
   fun _ _ _ _ _ _ _ hdep hs => reverse_convolve_len hdep hs⟩

/-- The non-uniform two-point forward distribution of the C1 analysis. -/
def distC1 : ForwardDiscreteDistribution :=
  (mkForwardDiscreteDistribution [0, 100] 2 (some [3, 1])).getD ⟨[], 0, []⟩

/-- Witness for the amended C2 at concrete inputs (a forward convolution with
`L1 = 2` and a reverse convolution with `L1 = 5`, both over the single-edge
network). -/
theorem C2_amended_witness :
    (distC1.forward_convolve fwdTable 1 2 3 1 100).map (fun d => d.values.length) =
      some 2 ∧
    ((mkAlphaDiscreteDistribution (List.replicate 5 (100 : ℚ)) 5 none).reverse_convolve
      fwdTable 1 2 3 10).map (fun d => d.values.length) = some 5 := by
  constructor
  · have h := C2_amended_length_invariant.2.2.1 distC1 fwdTable 1 2 3 1 100
      ((distC1.forward_convolve fwdTable 1 2 3 1 100).getD ⟨[], 0, []⟩) (by decide!)
    rw [show distC1.forward_convolve fwdTable 1 2 3 1 100 =
      some ((distC1.forward_convolve fwdTable 1 2 3 1 100).getD ⟨[], 0, []⟩) from by decide!]
    show some (((distC1.forward_convolve fwdTable 1 2 3 1 100).getD
      ⟨[], 0, []⟩).values.length) = some 2
    rw [h]
    decide!
  · have h := C2_amended_length_invariant.2.2.2
      (mkAlphaDiscreteDistribution (List.replicate 5 (100 : ℚ)) 5 none) fwdTable 1 2 3 10
      (((mkAlphaDiscreteDistribution (List.replicate 5 (100 : ℚ)) 5 none).reverse_convolve
        fwdTable 1 2 3 10).getD ⟨[], 0, []⟩) (by decide!) (by decide!)
    rw [show (mkAlphaDiscreteDistribution (List.replicate 5 (100 : ℚ)) 5 none).reverse_convolve
        fwdTable 1 2 3 10 =
      some (((mkAlphaDiscreteDistribution (List.replicate 5 (100 : ℚ)) 5 none).reverse_convolve
        fwdTable 1 2 3 10).getD ⟨[], 0, []⟩) from by decide!]
    show some ((((mkAlphaDiscreteDistribution (List.replicate 5 (100 : ℚ)) 5 none).reverse_convolve
      fwdTable 1 2 3 10).getD ⟨[], 0, []⟩).values.length) = some 5
    rw [h]
    decide!

/-- C1's claim fails: a successful forward convolution whose pooled candidate
count equals `L1` returns the pooled candidates with their (non-uniform)
weights unchanged instead of the evenly-spaced quantile resample with uniform
weights.  Here `L1 = 2`, `L2 = 1`, cap `K = 100`: the two pooled candidates
keep weights `[3/4, 1/4] ≠ [1/2, 1/2]`. -/
theorem C1_counterexample :
    distC1.L1 = 2 ∧
    (distC1.forward_convolve fwdTable 1 2 3 1 100).map (fun d => d.weights) =
      some [3/4, 1/4] ∧
    uniformW 2 = [1/2, 1/2] ∧
    ([3/4, 1/4] : List ℚ) ≠ [1/2, 1/2] := by
  refine ⟨by decide!, by decide!, by decide!, by decide!⟩

theorem sorted_map_mono {l : List ℚ} (h : List.Sorted (· ≤ ·) l) {f : ℚ → ℚ}
    (hf : ∀ a b : ℚ, a ≤ b → f a ≤ f b) : List.Sorted (· ≤ ·) (l.map f) :=
  List.Pairwise.map f (fun {a b} hab => hf a b hab) h

theorem linspace_sorted {a b : ℚ} (hab : a ≤ b) (n : ℕ) :
    List.Sorted (· ≤ ·) (linspace a b n) := by
  unfold linspace
  split_ifs with h1 h2
  · simp
  · simp
  · have hn : (2 : ℚ) ≤ (n : ℚ) := by
      have h3 : 2 ≤ n := by omega
      exact_mod_cast h3
    have hpos : (0 : ℚ) < (n : ℚ) - 1 := by linarith
    apply List.Pairwise.map
    · intro i j hij
      have hcast : (i : ℚ) ≤ (j : ℚ) := by exact_mod_cast le_of_lt hij
      have h4 : (b - a) * (i : ℚ) ≤ (b - a) * (j : ℚ) :=
        mul_le_mul_of_nonneg_left hcast (by linarith)
      have h5 : (b - a) * (i : ℚ) / ((n : ℚ) - 1) ≤ (b - a) * (j : ℚ) / ((n : ℚ) - 1) := by
        rw [div_le_div_iff₀ hpos hpos]
        exact mul_le_mul_of_nonneg_right h4 (le_of_lt hpos)
      linarith
    · exact List.pairwise_lt_range n

theorem quantileResample_length (selected : List (ℚ × ℚ)) (L1 : ℕ) :
    (quantileResample selected L1).length = L1 := by
  unfold quantileResample
  rw [List.length_map, linspace_length]

theorem linspace_bounds_le {L1 : ℕ} (h : 1 ≤ L1) :
    1 / ((L1 : ℚ) + 1) ≤ (L1 : ℚ) / ((L1 : ℚ) + 1) := by
  have h1 : (1 : ℚ) ≤ (L1 : ℚ) := by exact_mod_cast h
  have h2 : (0 : ℚ) < (L1 : ℚ) + 1 := by linarith
  rw [div_le_div_iff₀ h2 h2]
  nlinarith

theorem forwardSelected_fst_sorted {pooled : List (ℚ × ℚ)} (hp : List.Sorted pairLE pooled)
    (K : ℕ) : List.Sorted (· ≤ ·) ((forwardSelected pooled K).map Prod.fst) := by
  unfold forwardSelected
  split_ifs with h
  · rw [List.map_fst_zip _ _ (by rw [List.length_map, linspace_length, uniformW_length])]
    match K with
    | 0 => simp [linspace]
    | K + 1 =>
      apply sorted_map_mono (linspace_sorted (linspace_bounds_le (Nat.succ_le_succ (Nat.zero_le K))) (K + 1))
      intro x y hxy
      exact npInterp_mono (sorted_map_fst hp)
        (by rw [List.length_map, cumsum_length, List.length_map, List.length_map]) hxy
  · exact sorted_map_fst hp

theorem quantileResample_sorted {selected : List (ℚ × ℚ)}
    (hsel : List.Sorted (· ≤ ·) (selected.map Prod.fst)) {L1 : ℕ} (hL1 : 1 ≤ L1) :
    List.Sorted (· ≤ ·) (quantileResample selected L1) := by
  unfold quantileResample
  apply sorted_map_mono (linspace_sorted (linspace_bounds_le hL1) L1)
  intro x y hxy
  exact npInterp_mono hsel
    (by rw [List.length_map, cumsum_length, List.length_map, List.length_map]) hxy

theorem sortPairs_eq_of_sorted {l : List (ℚ × ℚ)} (h : List.Sorted pairLE l) :
    sortPairs l = l := List.Sorted.insertionSort_eq h

theorem map_div_one (l : List ℚ) : l.map (· / 1) = l := by
  induction l with
  | nil => rfl
  | cons a as ih => rw [List.map_cons, ih, div_one]

theorem mk_fdd_of_sorted {values : List ℚ} {L1 : ℕ} {ws : List ℚ}
    {d : ForwardDiscreteDistribution} (hsort : List.Sorted (· ≤ ·) values)
    (h : mkForwardDiscreteDistribution values L1 (some ws) = some d) :
    d.values = values ∧ d.weights = fddRawWeights L1 (some ws) := by
  obtain ⟨hlen, hwlen, rfl⟩ := mk_fdd_eq h
  have hzip : List.Sorted pairLE (values.zip (fddRawWeights L1 (some ws))) :=
    sorted_zip _ _ hsort
  have heq : sortPairs (values.zip (fddRawWeights L1 (some ws))) =
      values.zip (fddRawWeights L1 (some ws)) := List.Sorted.insertionSort_eq hzip
  constructor
  · show (sortPairs (values.zip (fddRawWeights L1 (some ws)))).map Prod.fst = values
    rw [heq, List.map_fst_zip _ _ (by rw [hwlen, hlen])]
  · show (sortPairs (values.zip (fddRawWeights L1 (some ws)))).map Prod.snd =
      fddRawWeights L1 (some ws)
    rw [heq, List.map_snd_zip _ _ (by rw [hwlen, hlen])]

theorem fddRawWeights_uniform {L1 : ℕ} (h : 1 ≤ L1) :
    fddRawWeights L1 (some (uniformW L1)) = uniformW L1 := by
  show (if 0 < (uniformW L1).sum then (uniformW L1).map (· / (uniformW L1).sum)
    else uniformW L1) = uniformW L1
  rw [sum_uniformW h, if_pos one_pos, map_div_one]

/-- C1, amended: whenever the candidate set remaining after the optional
internal-cap collapse does not already have exactly `L1` members, the
successful forward convolution returns exactly the `L1` values obtained by
interpolating the evenly-spaced quantiles `linspace(1/(L1+1), L1/(L1+1), L1)`
of that candidate set, with uniform weights `1/L1`; when the candidate count
already equals `L1`, the candidates and their weights are returned as-is. -/
theorem C1_amended_always_resampled (d : ForwardDiscreteDistribution)
    (table : List ((ℕ × ℕ × ℤ) × LinkTimeDistribution)) (cur succ : ℕ) (T : ℤ)
    (L2 K : ℕ) (d2 : ForwardDiscreteDistribution) (hL1 : 1 ≤ d.L1)
    (hs : d.forward_convolve table cur succ T L2 K = some d2)
    (hne : (forwardSelected (sortPairs (forwardRawCandidates d table cur succ T L2
      (availableSlots table cur succ))) K).length ≠ d.L1) :
    d2.values = quantileResample (forwardSelected (sortPairs (forwardRawCandidates d table
      cur succ T L2 (availableSlots table cur succ))) K) d.L1 ∧
    d2.weights = uniformW d.L1 := by
  simp only [ForwardDiscreteDistribution.forward_convolve] at hs
  by_cases h1 : availableSlots table cur succ = []
  · rw [if_pos h1] at hs
    simp at hs
  · rw [if_neg h1] at hs
    by_cases h2 : forwardRawCandidates d table cur succ T L2 (availableSlots table cur succ) = []
    · rw [if_pos h2] at hs
      simp at hs
    · rw [if_neg h2] at hs
      rw [if_pos (Nat.lt_or_lt_of_ne hne)] at hs
      by_cases h3 : forwardSelected (sortPairs (forwardRawCandidates d table cur succ T L2
          (availableSlots table cur succ))) K = []
      · rw [if_pos h3] at hs
        simp at hs
      · rw [if_neg h3] at hs
        have hselsort : List.Sorted (· ≤ ·)
            ((forwardSelected (sortPairs (forwardRawCandidates d table cur succ T L2
              (availableSlots table cur succ))) K).map Prod.fst) :=
          forwardSelected_fst_sorted (sortPairs_sorted _) K
        have hressort : List.Sorted (· ≤ ·)
            (quantileResample (forwardSelected (sortPairs (forwardRawCandidates d table cur
              succ T L2 (availableSlots table cur succ))) K) d.L1) :=
          quantileResample_sorted hselsort hL1
        have hzipsort : List.Sorted pairLE
            ((quantileResample (forwardSelected (sortPairs (forwardRawCandidates d table cur
              succ T L2 (availableSlots table cur succ))) K) d.L1).zip (uniformW d.L1)) :=
          sorted_zip _ _ hressort
        rw [sortPairs_eq_of_sorted hzipsort] at hs
        rw [List.map_fst_zip _ _ (by rw [uniformW_length, quantileResample_length])] at hs
        rw [List.map_snd_zip _ _ (by rw [uniformW_length, quantileResample_length])] at hs
        obtain ⟨hv, hw⟩ := mk_fdd_of_sorted hressort hs
        exact ⟨hv, hw.trans (fddRawWeights_uniform hL1)⟩

/-- Witness for the amended C1: a convolution with `L1 = 2` candidates pooled
from a three-point input (`L1 = 3`, `L2 = 1`), so the count differs from `L1`
and the output is the uniform-weight quantile resample. -/
theorem C1_amended_witness :
    ((mkForwardDiscreteDistribution [0, 50, 100] 3 none).getD
        ⟨[], 0, []⟩).forward_convolve fwdTable 1 2 3 2 100 =
      some ⟨quantileResample (forwardSelected (sortPairs (forwardRawCandidates
        ((mkForwardDiscreteDistribution [0, 50, 100] 3 none).getD ⟨[], 0, []⟩) fwdTable 1 2 3 2
        (availableSlots fwdTable 1 2))) 100) 3, 3, uniformW 3⟩ := by
  have h := C1_amended_always_resampled
    ((mkForwardDiscreteDistribution [0, 50, 100] 3 none).getD ⟨[], 0, []⟩) fwdTable 1 2 3 2 100
    ((((mkForwardDiscreteDistribution [0, 50, 100] 3 none).getD
      ⟨[], 0, []⟩).forward_convolve fwdTable 1 2 3 2 100).getD ⟨[], 0, []⟩)
    (by decide!) (by decide!) (by decide!)
  rw [show (((mkForwardDiscreteDistribution [0, 50, 100] 3 none).getD
      ⟨[], 0, []⟩).forward_convolve fwdTable 1 2 3 2 100) =
    some ((((mkForwardDiscreteDistribution [0, 50, 100] 3 none).getD
      ⟨[], 0, []⟩).forward_convolve fwdTable 1 2 3 2 100).getD ⟨[], 0, []⟩) from by decide!]
  congr 1
  have hL1 : ((((mkForwardDiscreteDistribution [0, 50, 100] 3 none).getD
      ⟨[], 0, []⟩).forward_convolve fwdTable 1 2 3 2 100).getD ⟨[], 0, []⟩).L1 = 3 := by decide!
  cases hgetd : (((mkForwardDiscreteDistribution [0, 50, 100] 3 none).getD
      ⟨[], 0, []⟩).forward_convolve fwdTable 1 2 3 2 100).getD ⟨[], 0, []⟩ with
  | mk v l w =>
    rw [hgetd] at h hL1
    obtain ⟨hv, hw⟩ := h
    simp only at hv hw hL1
    rw [show ((mkForwardDiscreteDistribution [0, 50, 100] 3 none).getD ⟨[], 0, []⟩).L1 = 3
      from by decide!] at hv hw
    rw [hv, hw, hL1]

theorem lookupLink_mem {table : List ((ℕ × ℕ × ℤ) × LinkTimeDistribution)} {u v : ℕ}
    {slot : ℤ} {D : LinkTimeDistribution} (h : lookupLink table u v slot = some D) :
    ∃ k, (k, D) ∈ table := by
  induction table with
  | nil => simp [lookupLink] at h
  | cons e rest ih =>
    obtain ⟨k, dist⟩ := e
    simp only [lookupLink] at h
    by_cases hk : k = (u, v, slot)
    · rw [if_pos hk] at h
      cases h
      exact ⟨k, List.mem_cons_self _ _⟩
    · rw [if_neg hk] at h
      obtain ⟨k2, hk2⟩ := ih h
      exact ⟨k2, List.mem_cons_of_mem _ hk2⟩

theorem getLinkDistributionAtSlot_mem {table : List ((ℕ × ℕ × ℤ) × LinkTimeDistribution)}
    {T : ℤ} {u v : ℕ} {slot : ℤ} {D : LinkTimeDistribution}
    (h : getLinkDistributionAtSlot table T u v slot = some D) : ∃ k, (k, D) ∈ table := by
  simp only [getLinkDistributionAtSlot] at h
  split at h
  · rename_i d heq
    cases h
    exact lookupLink_mem heq
  · split at h
    · exact lookupLink_mem h
    · simp at h

theorem slotDistributionFor_mem {table : List ((ℕ × ℕ × ℤ) × LinkTimeDistribution)}
    {T : ℤ} {u v : ℕ} {available : List ℤ} {slot_dep : ℤ} {D : LinkTimeDistribution}
    (h : slotDistributionFor table T u v available slot_dep = some D) :
    ∃ k, (k, D) ∈ table := by
  simp only [slotDistributionFor] at h
  split at h
  · rename_i d heq
    cases h
    exact getLinkDistributionAtSlot_mem heq
  · exact getLinkDistributionAtSlot_mem h

theorem sample_L2_times_ge {D : LinkTimeDistribution} {c : ℤ}
    (hc : ∀ t ∈ D.times, c ≤ t) (hne : D.times ≠ []) (r : ℚ) (L2 : ℕ) :
    ∀ t ∈ D.sample_L2_times r L2, c ≤ t := by
  intro t ht
  unfold LinkTimeDistribution.sample_L2_times sortInts at ht
  have ht2 := (List.perm_insertionSort (· ≤ ·) _).mem_iff.mp ht
  obtain ⟨i, _, rfl⟩ := List.mem_map.mp ht2
  exact inverse_cdf_ge hc hne _

theorem forwardRawCandidates_ge {d : ForwardDiscreteDistribution}
    {table : List ((ℕ × ℕ × ℤ) × LinkTimeDistribution)} {cur succ : ℕ} {T : ℤ} {L2 : ℕ}
    {available : List ℤ} {c : ℤ}
    (htable : ∀ e ∈ table, e.2.times ≠ [] ∧ ∀ t ∈ e.2.times, (1 : ℤ) ≤ t)
    (hvals : ∀ v ∈ d.values, (c : ℚ) ≤ v) :
    ∀ p ∈ forwardRawCandidates d table cur succ T L2 available, (c : ℚ) + 1 ≤ p.1 := by
  intro p hp
  simp only [forwardRawCandidates] at hp
  rw [List.mem_flatMap] at hp
  obtain ⟨q, hq, hpin⟩ := hp
  have hq1 : q.1 ∈ d.values := (List.of_mem_zip hq).1
  revert hpin
  cases hD : slotDistributionFor table T cur succ available (pyInt (q.1 / 10) % T) with
  | none =>
    intro hpin
    simp at hpin
  | some Ds =>
    intro hpin
    rw [List.mem_map] at hpin
    obtain ⟨travel, htr, rfl⟩ := hpin
    obtain ⟨k, hk⟩ := slotDistributionFor_mem hD
    obtain ⟨hDne, hDpos⟩ := htable (k, Ds) hk
    have h1 : (1 : ℤ) ≤ travel := sample_L2_times_ge hDpos hDne q.1 L2 travel htr
    have h2 : (c : ℚ) ≤ q.1 := hvals _ hq1
    have h3 : (1 : ℚ) ≤ (travel : ℚ) := by exact_mod_cast h1
    show (c : ℚ) + 1 ≤ q.1 + (travel : ℚ)
    linarith

theorem forwardSelected_ge {pooled : List (ℚ × ℚ)} {K : ℕ} {c : ℚ}
    (h : ∀ p ∈ pooled, c ≤ p.1) :
    ∀ p ∈ forwardSelected pooled K, c ≤ p.1 := by
  intro p hp
  simp only [forwardSelected] at hp
  by_cases hK : K < pooled.length
  · rw [if_pos hK] at hp
    obtain ⟨x, w⟩ := p
    have hx := (List.of_mem_zip hp).1
    rw [List.mem_map] at hx
    obtain ⟨q, hqmem, hxeq⟩ := hx
    show c ≤ x
    rw [← hxeq]
    apply le_npInterp_of_forall_le
    · intro y hy
      rw [List.mem_map] at hy
      obtain ⟨pp, hpp, rfl⟩ := hy
      exact h pp hpp
    · intro hmap
      have h2 := congrArg List.length hmap
      rw [List.length_map, List.length_nil] at h2
      omega
    · rw [List.length_map, cumsum_length, List.length_map, List.length_map]
  · rw [if_neg hK] at hp
    exact h p hp

theorem quantileResample_ge {selected : List (ℚ × ℚ)} {L1 : ℕ} {c : ℚ}
    (h : ∀ p ∈ selected, c ≤ p.1) (hne : selected ≠ []) :
    ∀ v ∈ quantileResample selected L1, c ≤ v := by
  intro v hv
  simp only [quantileResample] at hv
  rw [List.mem_map] at hv
  obtain ⟨q, hqmem, rfl⟩ := hv
  apply le_npInterp_of_forall_le
  · intro y hy
    rw [List.mem_map] at hy
    obtain ⟨pp, hpp, rfl⟩ := hy
    exact h pp hpp
  · intro hmap
    exact hne (List.map_eq_nil_iff.mp hmap)
  · rw [List.length_map, cumsum_length, List.length_map, List.length_map]

theorem forward_convolve_values_ge {d : ForwardDiscreteDistribution}
    {table : List ((ℕ × ℕ × ℤ) × LinkTimeDistribution)} {cur succ : ℕ} {T : ℤ} {L2 K : ℕ}
    {d2 : ForwardDiscreteDistribution} {c : ℤ}
    (htable : ∀ e ∈ table, e.2.times ≠ [] ∧ ∀ t ∈ e.2.times, (1 : ℤ) ≤ t)
    (hvals : ∀ v ∈ d.values, (c : ℚ) ≤ v)
    (hs : d.forward_convolve table cur succ T L2 K = some d2) :
    ∀ v ∈ d2.values, (c : ℚ) + 1 ≤ v := by
  simp only [ForwardDiscreteDistribution.forward_convolve] at hs
  by_cases h1 : availableSlots table cur succ = []
  · rw [if_pos h1] at hs
    simp at hs
  · rw [if_neg h1] at hs
    by_cases h2 : forwardRawCandidates d table cur succ T L2 (availableSlots table cur succ) = []
    · rw [if_pos h2] at hs
      simp at hs
    · rw [if_neg h2] at hs
      have hraw := @forwardRawCandidates_ge d table cur succ T L2
        (availableSlots table cur succ) c htable hvals
      have hpooled : ∀ p ∈ sortPairs (forwardRawCandidates d table cur succ T L2
          (availableSlots table cur succ)), (c : ℚ) + 1 ≤ p.1 := by
        intro p hp
        exact hraw p ((sortPairs_perm _).mem_iff.mp hp)
      have hsel := @forwardSelected_ge _ K _ hpooled
      split at hs
      · by_cases h3 : forwardSelected (sortPairs (forwardRawCandidates d table cur succ T L2
            (availableSlots table cur succ))) K = []
        · rw [if_pos h3] at hs
          simp at hs
        · rw [if_neg h3] at hs
          have hres := @quantileResample_ge _ d.L1 _ hsel h3
          intro v hv
          have hperm := (mk_fdd_values_perm hs).mem_iff.mp hv
          exact hres v (mem_sortPairs_zip_fst hperm)
      · intro v hv
        have hperm := (mk_fdd_values_perm hs).mem_iff.mp hv
        have hv2 := mem_sortPairs_zip_fst hperm
        rw [List.mem_map] at hv2
        obtain ⟨p, hp, rfl⟩ := hv2
        exact hsel p hp

theorem forward_convolve_wlen {d : ForwardDiscreteDistribution}
    {table : List ((ℕ × ℕ × ℤ) × LinkTimeDistribution)} {cur succ : ℕ} {T : ℤ} {L2 K : ℕ}
    {d2 : ForwardDiscreteDistribution}
    (hs : d.forward_convolve table cur succ T L2 K = some d2) :
    d2.weights.length = d.L1 := by
  simp only [ForwardDiscreteDistribution.forward_convolve] at hs
  by_cases h1 : availableSlots table cur succ = []
  · rw [if_pos h1] at hs
    simp at hs
  · rw [if_neg h1] at hs
    by_cases h2 : forwardRawCandidates d table cur succ T L2 (availableSlots table cur succ) = []
    · rw [if_pos h2] at hs
      simp at hs
    · rw [if_neg h2] at hs
      split at hs
      · split at hs
        · simp at hs
        · exact (mk_fdd_lengths hs).2.1
      · exact (mk_fdd_lengths hs).2.1

/-- Quantiles of a distribution all of whose values strictly exceed `c`
strictly exceed `c` themselves. -/
theorem fdd_quantile_gt {d : ForwardDiscreteDistribution} {c : ℚ}
    (hne : d.values ≠ []) (hlen : d.weights.length = d.values.length)
    (hgt : ∀ v ∈ d.values, c < v) (alpha : ℚ) :
    c < d.get_quantile alpha := by
  unfold ForwardDiscreteDistribution.get_quantile
  split_ifs with ha0 ha1
  · exact hgt _ (headD_mem hne 0)
  · exact hgt _ (getLastD_mem hne 0)
  · exact lt_npInterp_of_forall_lt hgt hne (by rw [cumsum_length, hlen])

/-- The hypothesis on the link-distribution table under which the amended C7
holds: every stored link distribution has a nonempty support of strictly
positive (hence `≥ 1`, times being integers) travel times. -/
def TableTimesPos (table : List ((ℕ × ℕ × ℤ) × LinkTimeDistribution)) : Prop :=
  ∀ e ∈ table, e.2.times ≠ [] ∧ ∀ t ∈ e.2.times, (1 : ℤ) ≤ t

instance (table : List ((ℕ × ℕ × ℤ) × LinkTimeDistribution)) :
    Decidable (TableTimesPos table) := by
  unfold TableTimesPos
  infer_instance

/-- Invariant carried by every label in the open queue of the forward search
started at `origin` with departure time `dep` and distribution size `n`. -/
def ForwardLabelOK (origin : ℕ) (dep : ℤ) (n : ℕ) (lab : ForwardLabel) : Prop :=
  lab.path.head? = some origin ∧ lab.path.getLast? = some lab.node_id ∧
  lab.path.Nodup ∧ lab.distribution.L1 = n ∧ lab.distribution.values.length = n ∧
  lab.distribution.weights.length = n ∧
  (∀ v ∈ lab.distribution.values, (dep : ℚ) ≤ v) ∧
  (2 ≤ lab.path.length → ∀ v ∈ lab.distribution.values, (dep : ℚ) < v)

/-- The C7 property of one recorded destination candidate. -/
def ForwardCandOK (origin destination : ℕ) (dep : ℤ) (c : ForwardCandidateInfo) : Prop :=
  c.path.head? = some origin ∧ c.path.getLast? = some destination ∧
  c.path.Nodup ∧ (dep : ℚ) < c.earliest_arrival

/-- The search-state invariant of the forward loop. -/
def ForwardStateOK (origin destination : ℕ) (dep : ℤ) (n : ℕ)
    (st : ForwardSearchState) : Prop :=
  (∀ lab ∈ st.open_labels, ForwardLabelOK origin dep n lab) ∧
  (∀ c ∈ st.destination_candidates, ForwardCandOK origin destination dep c)

theorem head?_append_of_some {α : Type} {l : List α} {a : α} (h : l.head? = some a)
    (l2 : List α) : (l ++ l2).head? = some a := by
  cases l with
  | nil => simp at h
  | cons x xs => simpa using h

theorem nodup_concat {α : Type} [DecidableEq α] {l : List α} {a : α} (hl : l.Nodup)
    (ha : a ∉ l) : (l ++ [a]).Nodup := by
  refine List.Nodup.append hl (List.nodup_singleton a) ?_
  intro x hx hxa
  rw [List.mem_singleton] at hxa
  subst hxa
  exact ha hx

theorem forwardInitLabel_OK (s : ForwardLabelSettingSolver) (origin : ℕ) (dep : ℤ) :
    ForwardLabelOK origin dep s.L1 (forwardInitLabel s origin dep) := by
  unfold forwardInitLabel
  cases hmk : mkForwardDiscreteDistribution (List.replicate s.L1 ((dep : ℤ) : ℚ)) s.L1
      (some (uniformW s.L1)) with
  | none =>
    exfalso
    rw [mk_fdd_some_eq (List.length_replicate s.L1 _) (uniformW_length s.L1)] at hmk
    simp at hmk
  | some d0 =>
    have hvals : ∀ v ∈ d0.values, v = ((dep : ℤ) : ℚ) := by
      intro v hv
      have h1 := (mk_fdd_values_perm hmk).mem_iff.mp hv
      exact List.eq_of_mem_replicate h1
    obtain ⟨hvl, hwl, hL1⟩ := mk_fdd_lengths hmk
    refine ⟨rfl, rfl, List.nodup_singleton origin, ?_, ?_, ?_, ?_, ?_⟩
    · simpa [hmk] using hL1
    · simpa [hmk] using hvl
    · simpa [hmk] using hwl
    · intro v hv
      simp only [hmk, Option.getD_some] at hv
      show (dep : ℚ) ≤ v
      rw [hvals v hv]
    · intro h2
      simp at h2

theorem mkForwardCandidateInfo_OK {origin destination : ℕ} {dep : ℤ} {n : ℕ}
    {cur : ForwardLabel} (hcur : ForwardLabelOK origin dep n cur) (hn : 1 ≤ n)
    (hne : origin ≠ destination) (hdest : cur.node_id = destination) (it : ℕ) (alpha : ℚ) :
    ForwardCandOK origin destination dep (mkForwardCandidateInfo cur it alpha dep) := by
  obtain ⟨hhead, hlast, hnodup, hL1, hvl, hwl, hge, hgt⟩ := hcur
  have hpne : cur.path ≠ [] := by
    intro h
    rw [h] at hhead
    simp at hhead
  have hlen1 : cur.path.length ≠ 1 := by
    intro h
    obtain ⟨a, ha⟩ := List.length_eq_one.mp h
    rw [ha] at hhead hlast
    simp at hhead hlast
    exact hne (by rw [← hhead, hlast]; exact hdest)
  have hplen : 2 ≤ cur.path.length := by
    have h0 := List.length_pos.mpr hpne
    omega
  have hvne : cur.distribution.values ≠ [] := by
    intro h
    rw [h] at hvl
    simp at hvl
    omega
  refine ⟨?_, ?_, ?_, ?_⟩
  · exact hhead
  · show cur.path.getLast? = some destination
    rw [hlast, hdest]
  · exact hnodup
  · show (dep : ℚ) < cur.distribution.get_quantile alpha
    exact fdd_quantile_gt hvne (by rw [hvl, hwl]) (hgt hplen) alpha

theorem forwardExpand_candidates (s : ForwardLabelSettingSolver) (alpha : ℚ)
    (cur : ForwardLabel) : ∀ (nbrs : List ℕ) (st : ForwardSearchState),
    (forwardExpand s alpha cur nbrs st).destination_candidates = st.destination_candidates := by
  intro nbrs
  induction nbrs with
  | nil => intro st; rfl
  | cons succ rest ih =>
    intro st
    simp only [forwardExpand]
    split
    · exact ih st
    · split
      · exact ih st
      · split
        · exact ih _
        · exact ih _

theorem forwardExpand_open_OK {s : ForwardLabelSettingSolver} {alpha : ℚ} {cur : ForwardLabel}
    {origin : ℕ} {dep : ℤ}
    (htable : TableTimesPos s.link_distributions)
    (hcur : ForwardLabelOK origin dep s.L1 cur) :
    ∀ (nbrs : List ℕ) (st : ForwardSearchState),
      (∀ l ∈ st.open_labels, ForwardLabelOK origin dep s.L1 l) →
      ∀ l ∈ (forwardExpand s alpha cur nbrs st).open_labels,
        ForwardLabelOK origin dep s.L1 l := by
  obtain ⟨hhead, hlast, hnodup, hL1d, hvl, hwl, hge, hgt⟩ := hcur
  intro nbrs
  induction nbrs with
  | nil => intro st hst; exact hst
  | cons succ rest ih =>
    intro st hst
    simp only [forwardExpand]
    split
    · exact ih st hst
    · rename_i hsucc
      split
      · exact ih st hst
      · rename_i new_dist hconv
        split
        · exact ih _ hst
        · apply ih
          intro l hl
          rcases List.mem_append.mp hl with hl2 | hl2
          · exact hst l hl2
          · rw [List.mem_singleton] at hl2
            subst hl2
            have hlen := forward_convolve_len hconv
            have hwlen := forward_convolve_wlen hconv
            have hvge := forward_convolve_values_ge htable hge hconv
            refine ⟨?_, ?_, ?_, ?_, ?_, ?_, ?_, ?_⟩
            · show (cur.path ++ [succ]).head? = some origin
              exact head?_append_of_some hhead [succ]
            · show (cur.path ++ [succ]).getLast? = some succ
              exact List.getLast?_concat cur.path
            · show (cur.path ++ [succ]).Nodup
              exact nodup_concat hnodup hsucc
            · show new_dist.L1 = s.L1
              rw [hlen.2, hL1d]
            · show new_dist.values.length = s.L1
              rw [hlen.1, hL1d]
            · show new_dist.weights.length = s.L1
              rw [hwlen, hL1d]
            · intro v hv
              have h2 := hvge v hv
              show (dep : ℚ) ≤ v
              linarith
            · intro _ v hv
              have h2 := hvge v hv
              show (dep : ℚ) < v
              linarith

theorem forwardLoop_OK {s : ForwardLabelSettingSolver} {origin destination : ℕ} {dep : ℤ}
    {alpha : ℚ} {K max_labels : ℕ}
    (htable : TableTimesPos s.link_distributions) (hL1 : 1 ≤ s.L1)
    (hne : origin ≠ destination) :
    ∀ (fuel : ℕ) (st : ForwardSearchState),
      ForwardStateOK origin destination dep s.L1 st →
      ForwardStateOK origin destination dep s.L1
        (forwardLoop s origin destination dep alpha K max_labels fuel st) := by
  intro fuel
  induction fuel with
  | zero => intro st hst; exact hst
  | succ fuel ih =>
    intro st hst
    obtain ⟨hopen, hcand⟩ := hst
    simp only [forwardLoop]
    split
    · exact ⟨hopen, hcand⟩
    · split
      · exact ⟨hopen, hcand⟩
      · rename_i pr cur restHeap hpop
        have hcur : ForwardLabelOK origin dep s.L1 cur :=
          hopen cur (extractMinBy_mem hpop).1
        have hrest : ∀ l ∈ restHeap, ForwardLabelOK origin dep s.L1 l :=
          fun l hl => hopen l ((extractMinBy_mem hpop).2 l hl)
        split
        · rename_i hdest
          have hcand2 : ∀ c ∈ st.destination_candidates ++
              [mkForwardCandidateInfo cur (st.iteration + 1) alpha dep],
              ForwardCandOK origin destination dep c := by
            intro c hc
            rcases List.mem_append.mp hc with hc2 | hc2
            · exact hcand c hc2
            · rw [List.mem_singleton] at hc2
              subst hc2
              exact mkForwardCandidateInfo_OK hcur hL1 hne hdest _ _
          split
          · exact ⟨hrest, hcand2⟩
          · exact ih _ ⟨hrest, hcand2⟩
        · split
          · exact ih _ ⟨hrest, hcand⟩
          · split
            · exact ih _ ⟨hrest, hcand⟩
            · apply ih
              refine ⟨?_, ?_⟩
              · exact forwardExpand_open_OK htable ⟨hcur.1, hcur.2.1, hcur.2.2.1,
                  hcur.2.2.2.1, hcur.2.2.2.2.1, hcur.2.2.2.2.2.1, hcur.2.2.2.2.2.2.1,
                  hcur.2.2.2.2.2.2.2⟩ _ _ hrest
              · intro c hc
                rw [forwardExpand_candidates] at hc
                exact hcand c hc

theorem forwardRanked_mem {cands : List ForwardCandidateInfo} {c : ForwardCandidateInfo}
    (hc : c ∈ forwardRanked cands) :
    ∃ c0 ∈ cands, c.path = c0.path ∧ c.earliest_arrival = c0.earliest_arrival := by
  simp only [forwardRanked] at hc
  rw [List.mem_map] at hc
  obtain ⟨p, hp, rfl⟩ := hc
  have h1 := (List.of_mem_zip hp).1
  have h2 : p.1 ∈ cands := (List.perm_insertionSort _ cands).mem_iff.mp h1
  exact ⟨p.1, h2, rfl, rfl⟩

/-- C7's claim fails at `origin = destination`: the root label is immediately
recorded as a candidate, so `solve_k_paths` succeeds with a candidate whose
`earliest_arrival` equals the departure time instead of strictly exceeding it
(its path `[origin]` does start at the origin, end at the destination, and has
no repeats). -/
theorem C7_counterexample :
    (ctxF.solve_k_paths 1 1 50 (1/2) 1 1000).success = true ∧
    ∃ c ∈ (ctxF.solve_k_paths 1 1 50 (1/2) 1 1000).all_candidates.getD [],
      c.path.head? = some 1 ∧ c.path.getLast? = some 1 ∧ c.path.Nodup ∧
      ¬ ((50 : ℤ) : ℚ) < c.earliest_arrival := by
  refine ⟨by decide!, by decide!⟩

/-- C7, amended: provided the origin and destination differ, every link
distribution in the table has a nonempty support of travel times `≥ 1`, and
`L1 ≥ 1`, every candidate returned by the forward `solve_k_paths` has a path
starting at the origin, ending at the destination, with no repeated nodes,
and an `earliest_arrival` strictly later than the departure time. -/
theorem C7_amended_candidate_properties (s : ForwardLabelSettingSolver)
    (origin destination : ℕ) (dep : ℤ) (alpha : ℚ) (K max_labels : ℕ)
    (htable : TableTimesPos s.link_distributions) (hL1 : 1 ≤ s.L1)
    (hne : origin ≠ destination) :
    ∀ c ∈ ((s.solve_k_paths origin destination dep alpha K max_labels).all_candidates).getD [],
      c.path.head? = some origin ∧ c.path.getLast? = some destination ∧
      c.path.Nodup ∧ (dep : ℚ) < c.earliest_arrival := by
  intro c hc
  have hinit : ForwardStateOK origin destination dep s.L1 (forwardInitState s origin dep) := by
    refine ⟨?_, ?_⟩
    · intro l hl
      rw [show (forwardInitState s origin dep).open_labels =
        [forwardInitLabel s origin dep] from rfl, List.mem_singleton] at hl
      subst hl
      exact forwardInitLabel_OK s origin dep
    · intro c2 hc2
      simp [forwardInitState] at hc2
  have hloop := @forwardLoop_OK s origin destination dep alpha K max_labels
    htable hL1 hne (forwardSearchFuel s max_labels) (forwardInitState s origin dep) hinit
  simp only [ForwardLabelSettingSolver.solve_k_paths] at hc
  split at hc
  · simp at hc
  · simp only [Option.getD_some] at hc
    obtain ⟨c0, hc0, hpath, harr⟩ := forwardRanked_mem hc
    obtain ⟨h1, h2, h3, h4⟩ := hloop.2 c0 hc0
    rw [hpath, harr]
    exact ⟨h1, h2, h3, h4⟩

/-- Closed instance of the amended C7 on the single-edge network: the forward
search `1 → 2` departing at time 0 meets all the candidate properties. -/
theorem C7_amended_witness :
    TableTimesPos ctxF.link_distributions ∧ 1 ≤ ctxF.L1 ∧ (1 : ℕ) ≠ 2 ∧
    ∀ c ∈ ((ctxF.solve_k_paths 1 2 0 (1/2) 1 1000).all_candidates).getD [],
      c.path.head? = some 1 ∧ c.path.getLast? = some 2 ∧ c.path.Nodup ∧
      ((0 : ℤ) : ℚ) < c.earliest_arrival :=
  ⟨by decide!, by decide!, by decide!,
    C7_amended_candidate_properties ctxF 1 2 0 (1/2) 1 1000 (by decide!) (by decide!)
      (by decide!)⟩

/-- Path invariant of reverse labels: the internally accumulated path starts at
the destination (the search root) and ends at the label's own node. -/
def ReverseLabelPathOK (destination : ℕ) (lab : ReverseLabel) : Prop :=
  lab.path.head? = some destination ∧ lab.path.getLast? = some lab.node_id

/-- The C10 property of one recorded origin candidate. -/
def ReverseCandPathOK (origin destination : ℕ) (c : ReverseCandidateInfo) : Prop :=
  c.path = c.label.path.reverse ∧ c.path.head? = some origin ∧
  c.path.getLast? = some destination

/-- The search-state path invariant of the reverse loop. -/
def ReverseStatePathOK (origin destination : ℕ) (st : ReverseSearchState) : Prop :=
  (∀ lab ∈ st.open_labels, ReverseLabelPathOK destination lab) ∧
  (∀ c ∈ st.origin_candidates, ReverseCandPathOK origin destination c)

theorem mkReverseCandidateInfo_path {origin destination : ℕ} {cur : ReverseLabel}
    (hcur : ReverseLabelPathOK destination cur) (horigin : cur.node_id = origin)
    (it : ℕ) (alpha : ℚ) :
    ReverseCandPathOK origin destination (mkReverseCandidateInfo cur it alpha) := by
  obtain ⟨hhead, hlast⟩ := hcur
  refine ⟨rfl, ?_, ?_⟩
  · show cur.path.reverse.head? = some origin
    rw [List.head?_reverse, hlast, horigin]
  · show cur.path.reverse.getLast? = some destination
    rw [List.getLast?_reverse, hhead]

theorem reverseExpand_candidates (s : ReverseLabelSettingSolver) (alpha : ℚ)
    (cur : ReverseLabel) : ∀ (nbrs : List ℕ) (st : ReverseSearchState),
    (reverseExpand s alpha cur nbrs st).origin_candidates = st.origin_candidates := by
  intro nbrs
  induction nbrs with
  | nil => intro st; rfl
  | cons pred rest ih =>
    intro st
    simp only [reverseExpand]
    split
    · exact ih st
    · split
      · exact ih st
      · split
        · exact ih _
        · exact ih _

theorem reverseExpand_open_OK {s : ReverseLabelSettingSolver} {alpha : ℚ} {cur : ReverseLabel}
    {destination : ℕ} (hcur : ReverseLabelPathOK destination cur) :
    ∀ (nbrs : List ℕ) (st : ReverseSearchState),
      (∀ l ∈ st.open_labels, ReverseLabelPathOK destination l) →
      ∀ l ∈ (reverseExpand s alpha cur nbrs st).open_labels,
        ReverseLabelPathOK destination l := by
  obtain ⟨hhead, hlast⟩ := hcur
  intro nbrs
  induction nbrs with
  | nil => intro st hst; exact hst
  | cons pred rest ih =>
    intro st hst
    simp only [reverseExpand]
    split
    · exact ih st hst
    · split
      · exact ih st hst
      · split
        · exact ih _ hst
        · apply ih
          intro l hl
          rcases List.mem_append.mp hl with hl2 | hl2
          · exact hst l hl2
          · rw [List.mem_singleton] at hl2
            subst hl2
            refine ⟨?_, ?_⟩
            · show (cur.path ++ [pred]).head? = some destination
              exact head?_append_of_some hhead [pred]
            · show (cur.path ++ [pred]).getLast? = some pred
              exact List.getLast?_concat cur.path

theorem reverseLoop_OK {s : ReverseLabelSettingSolver} {origin destination : ℕ}
    {alpha : ℚ} {K max_labels : ℕ} :
    ∀ (fuel : ℕ) (st : ReverseSearchState),
      ReverseStatePathOK origin destination st →
      ReverseStatePathOK origin destination
        (reverseLoop s origin destination alpha K max_labels fuel st) := by
  intro fuel
  induction fuel with
  | zero => intro st hst; exact hst
  | succ fuel ih =>
    intro st hst
    obtain ⟨hopen, hcand⟩ := hst
    simp only [reverseLoop]
    split
    · exact ⟨hopen, hcand⟩
    · split
      · exact ⟨hopen, hcand⟩
      · rename_i pr cur restHeap hpop
        have hcur : ReverseLabelPathOK destination cur :=
          hopen cur (extractMinBy_mem hpop).1
        have hrest : ∀ l ∈ restHeap, ReverseLabelPathOK destination l :=
          fun l hl => hopen l ((extractMinBy_mem hpop).2 l hl)
        split
        · rename_i horig
          have hcand2 : ∀ c ∈ st.origin_candidates ++
              [mkReverseCandidateInfo cur (st.iteration + 1) alpha],
              ReverseCandPathOK origin destination c := by
            intro c hc
            rcases List.mem_append.mp hc with hc2 | hc2
            · exact hcand c hc2
            · rw [List.mem_singleton] at hc2
              subst hc2
              exact mkReverseCandidateInfo_path hcur horig _ _
          split
          · exact ⟨hrest, hcand2⟩
          · exact ih _ ⟨hrest, hcand2⟩
        · split
          · exact ih _ ⟨hrest, hcand⟩
          · split
            · exact ih _ ⟨hrest, hcand⟩
            · apply ih
              refine ⟨?_, ?_⟩
              · exact reverseExpand_open_OK ⟨hcur.1, hcur.2⟩ _ _ hrest
              · intro c hc
                rw [reverseExpand_candidates] at hc
                exact hcand c hc

theorem reverseRanked_mem {cands : List ReverseCandidateInfo} {c : ReverseCandidateInfo}
    (hc : c ∈ reverseRanked cands) :
    ∃ c0 ∈ cands, c.path = c0.path ∧ c.label = c0.label := by
  simp only [reverseRanked] at hc
  rw [List.mem_map] at hc
  obtain ⟨p, hp, rfl⟩ := hc
  have h1 := (List.of_mem_zip hp).1
  have h2 : p.1 ∈ cands := (List.perm_insertionSort _ cands).mem_iff.mp h1
  exact ⟨p.1, h2, rfl, rfl⟩

/-- C10: every candidate returned by the reverse `solve_k_paths` carries a
`path` equal to the reversal of its label's internally accumulated
(destination-rooted) path, and this reported path starts at the origin and
ends at the destination. -/
theorem C10_reverse_path_orientation (s : ReverseLabelSettingSolver)
    (origin destination : ℕ) (t : ℤ) (alpha : ℚ) (K max_labels : ℕ) :
    ∀ c ∈ ((s.solve_k_paths origin destination t alpha K max_labels).all_candidates).getD [],
      c.path = c.label.path.reverse ∧ c.path.head? = some origin ∧
      c.path.getLast? = some destination := by
  intro c hc
  have hinit : ReverseStatePathOK origin destination (reverseInitState s destination t) := by
    refine ⟨?_, ?_⟩
    · intro l hl
      rw [show (reverseInitState s destination t).open_labels =
        [reverseInitLabel s destination t] from rfl, List.mem_singleton] at hl
      subst hl
      exact ⟨rfl, rfl⟩
    · intro c2 hc2
      simp [reverseInitState] at hc2
  have hloop := @reverseLoop_OK s origin destination alpha K max_labels
    (reverseSearchFuel s max_labels) (reverseInitState s destination t) hinit
  simp only [ReverseLabelSettingSolver.solve_k_paths] at hc
  split at hc
  · simp at hc
  · simp only [Option.getD_some] at hc
    obtain ⟨c0, hc0, hpath, hlabel⟩ := reverseRanked_mem hc
    obtain ⟨h1, h2, h3⟩ := hloop.2 c0 hc0
    rw [hpath, hlabel]
    exact ⟨h1, h2, h3⟩

/-- Closed instance of C10 on the single-edge network: the one candidate of
the reverse search `1 → 2` with target arrival 100 reports the reversed,
origin-to-destination path. -/
theorem C10_witness :
    ((ctxC9.solve_k_paths 1 2 100 (1/2) 1 1000).all_candidates.getD []).headD
        junkReverseCandidate ∈
      (ctxC9.solve_k_paths 1 2 100 (1/2) 1 1000).all_candidates.getD [] ∧
    (((ctxC9.solve_k_paths 1 2 100 (1/2) 1 1000).all_candidates.getD []).headD
        junkReverseCandidate).path =
      (((ctxC9.solve_k_paths 1 2 100 (1/2) 1 1000).all_candidates.getD []).headD
        junkReverseCandidate).label.path.reverse ∧
    (((ctxC9.solve_k_paths 1 2 100 (1/2) 1 1000).all_candidates.getD []).headD
        junkReverseCandidate).path.head? = some 1 ∧
    (((ctxC9.solve_k_paths 1 2 100 (1/2) 1 1000).all_candidates.getD []).headD
        junkReverseCandidate).path.getLast? = some 2 :=
  ⟨by decide!,
    C10_reverse_path_orientation ctxC9 1 2 100 (1/2) 1 1000
      (((ctxC9.solve_k_paths 1 2 100 (1/2) 1 1000).all_candidates.getD []).headD
        junkReverseCandidate) (by decide!)⟩
